import Mathlib

/-!
Verification development for the redream SH4 JIT core: the SH4 frontend
(block analysis and translation, src/unnamed/part_000, sh4_frontend.c) and
the SH4 code cache (src/src/hw/sh4/sh4_code_cache.cc).

Modelling conventions:
- Guest addresses are uint32_t in the source; the walk arithmetic is
  modelled in Nat (no 2^32 wrap-around: none of the verified properties
  exercises a block that crosses the top of the 32-bit address space, and
  the source's own behaviour there funnels into undefined behaviour through
  an empty-IR list_last_entry).
- The counters guest_size / num_cycles / num_instrs are int-typed
  accumulators in the source (signed overflow being undefined); they are
  modelled as Nat.
- The decode table sh4_get_opdef, the guest memory callback r16 and the
  per-opcode IR emit callbacks live outside the provided sources and are
  parameters of the model (fields of Guest below).
- The unbounded while(1) loop of sh4_analyze_block is modelled with fuel;
  the fatal CHECK that a delay-slot instruction is not itself DELAYED is
  modelled as an aborting result (none).
-/

set_option maxRecDepth 4000

namespace Redream

/-- Flag bits of a decoded SH4 opcode descriptor (SH4_FLAG_INVALID,
SH4_FLAG_DELAYED, SH4_FLAG_BRANCH, SH4_FLAG_SET_FPSCR, SH4_FLAG_SET_SR),
modelled as one Boolean per bit. -/
structure OpFlags where
  invalid : Bool := false
  delayed : Bool := false
  branch : Bool := false
  set_fpscr : Bool := false
  set_sr : Bool := false
deriving DecidableEq, Repr

/-- jit_opdef: the static descriptor of one 16-bit opcode, as far as
sh4_analyze_block reads it (flags and cycle count). -/
structure Opdef where
  flags : OpFlags := {}
  cycles : Nat := 1
deriving DecidableEq, Repr

/-- Shape of an IR instruction, as much of it as
sh4_frontend_translate_code inspects: OP_BRANCH (with an optional constant
i32 target), OP_FALLBACK (arg 2 holding the raw guest instruction word),
and any other opcode. -/
inductive IRInstr where
  | branch (target : Option Nat)
  | fallback (data : Nat)
  | other (code : Nat)
deriving DecidableEq, Repr

/-- The guest interface consumed by the frontend: r16 fetches the 16-bit
word at a guest address, getOpdef is sh4_get_opdef (the decode table, which
is outside the provided sources), and cb models the per-opcode translate
callback sh4_get_translator(data) as the list of IR instructions it
appends, given (flags, addr, instruction word). -/
structure Guest where
  r16 : Nat → Nat
  getOpdef : Nat → Opdef
  cb : Nat → Nat → Nat → List IRInstr

/-- The three accumulators of jit_block filled in by sh4_analyze_block. -/
structure BlockTotals where
  guest_size : Nat := 0
  num_cycles : Nat := 0
  num_instrs : Nat := 0
deriving DecidableEq, Repr

/-- Loop body of sh4_analyze_block. Per iteration: fetch and decode the
instruction at addr, accumulate its 2 bytes / cycles / 1 instruction; if it
is DELAYED, also fetch, decode and accumulate its delay slot and abort
(fatal CHECK) if the slot is itself DELAYED; then break on invalid (the
instruction or its delay slot being INVALID), and break if the
instruction's own flags hold BRANCH, SET_FPSCR or SET_SR. -/
def analyzeLoop (g : Guest) : Nat → Nat → BlockTotals → Option BlockTotals
  | 0, _, _ => none
  | fuel+1, addr, t =>
    let d := g.getOpdef (g.r16 addr)
    let invalid0 := d.flags.invalid
    let t1 : BlockTotals :=
      { guest_size := t.guest_size + 2
        num_cycles := t.num_cycles + d.cycles
        num_instrs := t.num_instrs + 1 }
    if d.flags.delayed then
      let dd := g.getOpdef (g.r16 (addr + 2))
      let invalid1 := invalid0 || dd.flags.invalid
      let t2 : BlockTotals :=
        { guest_size := t1.guest_size + 2
          num_cycles := t1.num_cycles + dd.cycles
          num_instrs := t1.num_instrs + 1 }
      if dd.flags.delayed then none
      else if invalid1 then some t2
      else if d.flags.branch || d.flags.set_fpscr || d.flags.set_sr then some t2
      else analyzeLoop g fuel (addr + 4) t2
    else
      if invalid0 then some t1
      else if d.flags.branch || d.flags.set_fpscr || d.flags.set_sr then some t1
      else analyzeLoop g fuel (addr + 2) t1

/-- sh4_analyze_block: zero the three accumulators, then run the walk from
the block's guest_addr. -/
def sh4_analyze_block (g : Guest) (fuel : Nat) (guest_addr : Nat) :
    Option BlockTotals :=
  analyzeLoop g fuel guest_addr {}

/-- Address advance of one main instruction of the walk: a DELAYED
instruction consumes its delay slot as well. -/
def stepAddr (g : Guest) (a : Nat) : Nat :=
  if (g.getOpdef (g.r16 a)).flags.delayed then a + 4 else a + 2

/-- Address of the k-th main instruction of the walk starting at a. -/
def walkAddr (g : Guest) : Nat → Nat → Nat
  | a, 0 => a
  | a, k+1 => walkAddr g (stepAddr g a) k

/-- Whether the walk ends at the main instruction at address a, exactly as
sh4_analyze_block tests it: the instruction is INVALID, or is DELAYED with
an INVALID delay slot, or its own flags (the delay slot's flags are not
consulted here) hold BRANCH, SET_FPSCR or SET_SR. -/
def instrTerm (g : Guest) (a : Nat) : Bool :=
  let d := g.getOpdef (g.r16 a)
  (d.flags.invalid
      || (d.flags.delayed && (g.getOpdef (g.r16 (a + 2))).flags.invalid))
    || d.flags.branch || d.flags.set_fpscr || d.flags.set_sr

/-- Whether the fatal CHECK of sh4_analyze_block passes at the main
instruction at address a: a DELAYED instruction's delay slot must not be
DELAYED itself. -/
def instrOk (g : Guest) (a : Nat) : Bool :=
  let d := g.getOpdef (g.r16 a)
  !(d.flags.delayed && (g.getOpdef (g.r16 (a + 2))).flags.delayed)

/-- Accumulation of one main instruction (with its delay slot when
DELAYED) at address a into the running totals. -/
def instrTotals (g : Guest) (a : Nat) (t : BlockTotals) : BlockTotals :=
  let d := g.getOpdef (g.r16 a)
  if d.flags.delayed then
    let dd := g.getOpdef (g.r16 (a + 2))
    { guest_size := t.guest_size + 2 + 2
      num_cycles := t.num_cycles + d.cycles + dd.cycles
      num_instrs := t.num_instrs + 1 + 1 }
  else
    { guest_size := t.guest_size + 2
      num_cycles := t.num_cycles + d.cycles
      num_instrs := t.num_instrs + 1 }

/-- Totals of the first k main instructions of the walk from a, starting
from accumulator t. -/
def walkTotalsFrom (g : Guest) : Nat → BlockTotals → Nat → BlockTotals
  | _, t, 0 => t
  | a, t, k+1 => walkTotalsFrom g (stepAddr g a) (instrTotals g a t) k

/-- Concatenated output of the translate callbacks of the first k main
instructions of the walk from a. -/
def walkEmit (g : Guest) (flags : Nat) : Nat → Nat → List IRInstr
  | _, 0 => []
  | a, k+1 => g.cb flags a (g.r16 a) ++ walkEmit g flags (stepAddr g a) k

/-- Spec rendition of the analyze walk, for comparison with
sh4_analyze_block: identical in every respect except that, following the
spec's termination rule 2 (current instruction OR ITS DELAY SLOT has
BRANCH, SET_FPSCR or SET_SR), the break after a DELAYED instruction also
consults the delay slot's flags. -/
def specAnalyzeLoop (g : Guest) : Nat → Nat → BlockTotals → Option BlockTotals
  | 0, _, _ => none
  | fuel+1, addr, t =>
    let d := g.getOpdef (g.r16 addr)
    let invalid0 := d.flags.invalid
    let t1 : BlockTotals :=
      { guest_size := t.guest_size + 2
        num_cycles := t.num_cycles + d.cycles
        num_instrs := t.num_instrs + 1 }
    if d.flags.delayed then
      let dd := g.getOpdef (g.r16 (addr + 2))
      let invalid1 := invalid0 || dd.flags.invalid
      let t2 : BlockTotals :=
        { guest_size := t1.guest_size + 2
          num_cycles := t1.num_cycles + dd.cycles
          num_instrs := t1.num_instrs + 1 }
      if dd.flags.delayed then none
      else if invalid1 then some t2
      else if d.flags.branch || d.flags.set_fpscr || d.flags.set_sr
          || dd.flags.branch || dd.flags.set_fpscr || dd.flags.set_sr then
        some t2
      else specAnalyzeLoop g fuel (addr + 4) t2
    else
      if invalid0 then some t1
      else if d.flags.branch || d.flags.set_fpscr || d.flags.set_sr then some t1
      else specAnalyzeLoop g fuel (addr + 2) t1

/-- Spec rendition of sh4_analyze_block (see specAnalyzeLoop). -/
def spec_analyze_block (g : Guest) (fuel : Nat) (guest_addr : Nat) :
    Option BlockTotals :=
  specAnalyzeLoop g fuel guest_addr {}

/-- Block translation flag SH4_FASTMEM. The concrete bit values live in
sh4_frontend.h, which is not among the provided sources; the spec fixes
four distinct per-block flags, modelled here as four distinct bits. -/
def SH4_FASTMEM : Nat := 1

/-- Block translation flag SH4_SLOWMEM (set after a fastmem fault). -/
def SH4_SLOWMEM : Nat := 2

/-- Block translation flag SH4_DOUBLE_PR (FPSCR PR bit at translation). -/
def SH4_DOUBLE_PR : Nat := 4

/-- Block translation flag SH4_DOUBLE_SZ (FPSCR SZ bit at translation). -/
def SH4_DOUBLE_SZ : Nat := 8

/-- The live guest state read by sh4_frontend_translate_code when it
computes the per-block flags: block->fastmem and the PR/SZ bits of the
context's fpscr. -/
structure TranslateCtx where
  fastmem : Bool
  fpscr_pr : Bool
  fpscr_sz : Bool
deriving DecidableEq, Repr

/-- The flags word computed at the top of sh4_frontend_translate_code. -/
def translateFlags (ctx : TranslateCtx) : Nat :=
  (if ctx.fastmem then SH4_FASTMEM else 0)
    ||| (if ctx.fpscr_pr then SH4_DOUBLE_PR else 0)
    ||| (if ctx.fpscr_sz then SH4_DOUBLE_SZ else 0)

/-- The emit loop of sh4_frontend_translate_code: while addr is below the
block end, run the decoded instruction's translate callback (which appends
IR) and advance addr by 4 for a DELAYED instruction (its callback also
consumes the delay slot) and by 2 otherwise. The loop is bounded (addr
strictly increases towards endA); fuel makes that bound explicit, and
translateLoop_run below shows fuel = endA - addr always suffices. -/
def translateLoop (g : Guest) (flags : Nat) :
    Nat → Nat → Nat → List IRInstr → Option (List IRInstr × Nat)
  | 0, addr, endA, ir =>
    if addr < endA then none else some (ir, addr)
  | fuel+1, addr, endA, ir =>
    if addr < endA then
      let data := g.r16 addr
      let d := g.getOpdef data
      let ir2 := ir ++ g.cb flags addr data
      translateLoop g flags fuel
        (if d.flags.delayed then addr + 4 else addr + 2) endA ir2
    else some (ir, addr)

/-- Whether the tail IR instruction already ends the block: it is
OP_BRANCH, or it is OP_FALLBACK and the opdef of its guest word (arg 2)
has the BRANCH flag. -/
def endsInBranch (g : Guest) (tail : IRInstr) : Bool :=
  match tail with
  | .branch _ => true
  | .fallback data => (g.getOpdef data).flags.branch
  | .other _ => false

/-- sh4_frontend_translate_code: compute the flags from live guest state,
run sh4_analyze_block to delimit the block, emit IR for each main
instruction, and, if the final IR instruction is neither OP_BRANCH nor an
OP_FALLBACK whose opcode carries BRANCH, append a branch to the constant
address the loop finished at. An empty emitted IR makes the source's
list_last_entry undefined; modelled as an aborting result. -/
def sh4_frontend_translate_code (g : Guest) (ctx : TranslateCtx) (fuel : Nat)
    (guest_addr : Nat) : Option (List IRInstr) :=
  let flags := translateFlags ctx
  match sh4_analyze_block g fuel guest_addr with
  | none => none
  | some t =>
    let endA := guest_addr + t.guest_size
    match translateLoop g flags t.guest_size guest_addr endA [] with
    | none => none
    | some (ir, addr) =>
      match ir.getLast? with
      | none => none
      | some tail =>
        if endsInBranch g tail then some ir
        else some (ir ++ [IRInstr.branch (some addr)])

/-!
The SH4 code cache (src/src/hw/sh4/sh4_code_cache.cc).

sh4_block_t nodes are heap objects linked intrusively into two red-black
trees (blocks, ordered by guest_addr via block_map_cmp, and
reverse_blocks, ordered by host_addr via reverse_block_map_cmp). The model
keeps the heap explicit: store is an association list from a node id to
the block's fields, and the two trees are the lists of member ids, so
that a mutation of a node's flags is seen through both trees, exactly as
for the shared C nodes. Tree order is not kept in the lists; instead the
upper-bound-then-predecessor probes are modelled directly as the
|largest key at most the probe key| selection they implement (ties between
equal keys cannot arise in reachable trees and are resolved to the first
listed). Host code addresses and code pointers are modelled as Nat. The
dispatch table code[MAX_BLOCKS] is a total function from offsets;
BLOCK_OFFSET is a parameter bo (its macro body is outside the provided
sources). The X64 backend is a collaborator: its AssembleCode outcomes
enter sh4_cache_compile_code as the asm1/asm2 parameters (first call and
the one retry), HandleFastmemException enters sh4_cache_handle_exception
as a Boolean verdict, and Reset is tracked by the backend_resets counter.
-/

/-- sh4_block_t: one compiled block's fields. -/
structure sh4_block where
  guest_addr : Nat
  guest_size : Nat
  host_addr : Nat
  host_size : Nat
  flags : Nat
deriving DecidableEq, Repr

/-- sh4_cache_t: the block heap, the two index trees (as member id
lists over the shared heap), the dispatch table, the default code
pointer, an allocation counter for fresh node ids, and the count of
backend Reset calls. -/
@[ext]
structure sh4_cache where
  store : List (Nat × sh4_block)
  blocks : List Nat
  reverse_blocks : List Nat
  code : Nat → Nat
  default_code : Nat
  next_id : Nat
  backend_resets : Nat

/-- Pointwise update of the dispatch table. -/
def updateFn (f : Nat → Nat) (k v : Nat) : Nat → Nat :=
  fun x => if x = k then v else f x

/-- The flags mutation of the fastmem protocol: block->flags |=
SH4_SLOWMEM. -/
def setSlowmem (b : sh4_block) : sh4_block :=
  { b with flags := b.flags ||| SH4_SLOWMEM }

/-- The forward tree's members resolved through the heap. -/
def fwdEntries (c : sh4_cache) : List (Nat × sh4_block) :=
  c.blocks.filterMap (fun i => (c.store.lookup i).map (fun b => (i, b)))

/-- The reverse tree's members resolved through the heap. -/
def revEntries (c : sh4_cache) : List (Nat × sh4_block) :=
  c.reverse_blocks.filterMap (fun i => (c.store.lookup i).map (fun b => (i, b)))

/-- One step of the largest-key-at-most-limit selection. -/
def pickStep (key : sh4_block → Nat) (limit : Nat)
    (best : Option (Nat × sh4_block)) (e : Nat × sh4_block) :
    Option (Nat × sh4_block) :=
  if key e.2 ≤ limit then
    match best with
    | none => some e
    | some b => if key b.2 < key e.2 then some e else some b
  else best

/-- The entry with the largest key at most limit, none when every key is
greater: the meaning of the rb_upper_bound-then-rb_prev probe used by
sh4_cache_lookup_block and sh4_cache_lookup_block_reverse. -/
def pickMaxLe (key : sh4_block → Nat) (limit : Nat)
    (l : List (Nat × sh4_block)) : Option (Nat × sh4_block) :=
  l.foldl (pickStep key limit) none

/-- sh4_cache_lookup_block: the block with the largest guest_addr at most
guest_addr. Note the source checks no footprint bound here: the
predecessor is returned whether or not guest_addr falls inside it. -/
def sh4_cache_lookup_block (c : sh4_cache) (guest_addr : Nat) :
    Option (Nat × sh4_block) :=
  pickMaxLe (fun b => b.guest_addr) guest_addr (fwdEntries c)

/-- sh4_cache_lookup_block_reverse: the block with the largest host_addr
at most the probe address; again no host_size bound is checked. -/
def sh4_cache_lookup_block_reverse (c : sh4_cache) (host_addr : Nat) :
    Option (Nat × sh4_block) :=
  pickMaxLe (fun b => b.host_addr) host_addr (revEntries c)

/-- sh4_cache_get_block: exact rb_find_entry lookup on guest_addr. -/
def sh4_cache_get_block (c : sh4_cache) (guest_addr : Nat) :
    Option (Nat × sh4_block) :=
  (fwdEntries c).find? (fun e => e.2.guest_addr == guest_addr)

section CacheOps

variable (bo : Nat → Nat)

/-- sh4_cache_unlink_block: reset the block's dispatch slot to the
default code pointer. -/
def sh4_cache_unlink_block (c : sh4_cache) (b : sh4_block) : sh4_cache :=
  { c with code := updateFn c.code (bo b.guest_addr) c.default_code }

/-- sh4_cache_remove_block: unlink the block's dispatch slot, unlink the
node from both trees, and free it. -/
def sh4_cache_remove_block (c : sh4_cache) (id : Nat) : sh4_cache :=
  match c.store.lookup id with
  | none => c
  | some b =>
    let c1 := sh4_cache_unlink_block bo c b
    { c1 with
      blocks := c1.blocks.filter (fun j => j != id)
      reverse_blocks := c1.reverse_blocks.filter (fun j => j != id)
      store := c1.store.filter (fun e => e.1 != id) }

/-- Loop body of sh4_cache_remove_blocks: keep removing the block found
by sh4_cache_lookup_block until the probe comes back empty. Each removal
shrinks the forward tree, so the fuel given by the wrapper suffices. -/
def removeBlocksLoop : Nat → sh4_cache → Nat → sh4_cache
  | 0, c, _ => c
  | fuel+1, c, guest_addr =>
    match sh4_cache_lookup_block c guest_addr with
    | none => c
    | some e => removeBlocksLoop fuel (sh4_cache_remove_block bo c e.1) guest_addr

/-- sh4_cache_remove_blocks. -/
def sh4_cache_remove_blocks (c : sh4_cache) (guest_addr : Nat) : sh4_cache :=
  removeBlocksLoop bo (c.blocks.length + 1) c guest_addr

/-- sh4_cache_unlink_blocks: walk the forward tree unlinking every
block's dispatch slot, leaving the trees and the heap alone. -/
def sh4_cache_unlink_blocks (c : sh4_cache) : sh4_cache :=
  c.blocks.foldl
    (fun acc id =>
      match acc.store.lookup id with
      | none => acc
      | some b => sh4_cache_unlink_block bo acc b)
    c

/-- sh4_cache_clear_blocks: walk the forward tree removing every block,
then have the backend reset its codegen buffers. -/
def sh4_cache_clear_blocks (c : sh4_cache) : sh4_cache :=
  let c1 := c.blocks.foldl (fun acc id => sh4_cache_remove_block bo acc id) c
  { c1 with backend_resets := c1.backend_resets + 1 }

/-- sh4_cache_handle_exception: probe the reverse tree with the faulting
pc; decline when the probe misses or the backend's
HandleFastmemException (the backend_handles verdict) declines; on
success unlink the block's dispatch slot and OR SH4_SLOWMEM into its
flags, leaving it in both trees. Returns the handled verdict with the
resulting cache. -/
def sh4_cache_handle_exception (c : sh4_cache) (pc : Nat)
    (backend_handles : Bool) : Bool × sh4_cache :=
  match sh4_cache_lookup_block_reverse c pc with
  | none => (false, c)
  | some (id, b) =>
    if !backend_handles then (false, c)
    else
      let c1 := sh4_cache_unlink_block bo c b
      let c2 :=
        { c1 with
          store := c1.store.map
            (fun e => if e.1 = id then (id, setSlowmem e.2) else e) }
      (true, c2)

/-- The fatal CHECK conditions of sh4_cache_compile_code_inner. -/
inductive CompileErr where
  | offsetOutOfRange
  | slotNotDefault
  | assemblerOverflow
deriving DecidableEq, Repr

/-- Allocate the new block node, populate its fields, insert it into both
trees and write its host address into the dispatch slot, returning the
updated cache with the new code pointer. -/
def insertNewBlock (c : sh4_cache) (guest_addr guest_size flags host_addr
    host_size : Nat) : sh4_cache × Nat :=
  let id := c.next_id
  let b : sh4_block :=
    { guest_addr := guest_addr, guest_size := guest_size,
      host_addr := host_addr, host_size := host_size, flags := flags }
  ({ c with
      store := (id, b) :: c.store
      blocks := id :: c.blocks
      reverse_blocks := id :: c.reverse_blocks
      code := updateFn c.code (bo guest_addr) host_addr
      next_id := c.next_id + 1 }, host_addr)

/-- sh4_cache_compile_code_inner. CHECK the offset bound and that the
dispatch slot holds the default code pointer; merge and remove a stale
block with the same guest_addr when present (ORing its flags into the
translation flags); translate (guest_size is the frontend's analyzed
extent); then assemble: asm1 is the first AssembleCode outcome; on null
the whole cache is cleared and asm2 (the outcome of the single retry) is
consulted, a second null being the fatal buffer-overflow CHECK. -/
def sh4_cache_compile_code (maxBlocks : Nat) (c : sh4_cache)
    (guest_addr flags guest_size : Nat) (asm1 asm2 : Option (Nat × Nat)) :
    Except CompileErr (sh4_cache × Nat) :=
  let offset := bo guest_addr
  if offset ≥ maxBlocks then .error .offsetOutOfRange
  else if c.code offset ≠ c.default_code then .error .slotNotDefault
  else
    let stale := sh4_cache_get_block c guest_addr
    let flags1 :=
      match stale with
      | some e => flags ||| e.2.flags
      | none => flags
    let c1 :=
      match stale with
      | some e => sh4_cache_remove_block bo c e.1
      | none => c
    match asm1 with
    | some (host_addr, host_size) =>
      .ok (insertNewBlock bo c1 guest_addr guest_size flags1 host_addr host_size)
    | none =>
      let c2 := sh4_cache_clear_blocks bo c1
      match asm2 with
      | none => .error .assemblerOverflow
      | some (host_addr, host_size) =>
        .ok (insertNewBlock bo c2 guest_addr guest_size flags1 host_addr host_size)

end CacheOps

/-- Invariant: the forward and the reverse tree hold the same set of
block nodes. -/
def sameIds (c : sh4_cache) : Prop :=
  ∀ i, i ∈ c.blocks ↔ i ∈ c.reverse_blocks

/-- A cache with no blocks, every dispatch slot on the default pointer. -/
def emptyCache : sh4_cache :=
  { store := [], blocks := [], reverse_blocks := [],
    code := fun _ => 0, default_code := 0, next_id := 0, backend_resets := 0 }

/-- A cache holding one block covering guest [0x8C000100, 0x8C000108). -/
def cacheOne : sh4_cache :=
  { store := [(0, { guest_addr := 0x8C000100, guest_size := 8,
                    host_addr := 1000, host_size := 16, flags := 0 })],
    blocks := [0], reverse_blocks := [0],
    code := fun _ => 0, default_code := 0, next_id := 1, backend_resets := 0 }

/-- The cache of the spec's scenario 3: blocks at 0x8C000100 (guest_size
8) and 0x8C000200 (guest_size 4). -/
def cacheTwo : sh4_cache :=
  { store := [(0, { guest_addr := 0x8C000100, guest_size := 8,
                    host_addr := 1000, host_size := 16, flags := 0 }),
              (1, { guest_addr := 0x8C000200, guest_size := 4,
                    host_addr := 2000, host_size := 16, flags := 0 })],
    blocks := [0, 1], reverse_blocks := [0, 1],
    code := fun _ => 0, default_code := 0, next_id := 2, backend_resets := 0 }

/-- A cache holding one block whose host code occupies
[1000, 1016); used to probe the exception handler with a faulting pc far
past the block's host footprint. -/
def cacheHost : sh4_cache :=
  { store := [(0, { guest_addr := 0x100, guest_size := 4,
                    host_addr := 1000, host_size := 16, flags := 0 })],
    blocks := [0], reverse_blocks := [0],
    code := fun _ => 0, default_code := 0, next_id := 1, backend_resets := 0 }

/-- A cache with one stale block at guest_addr 100 whose dispatch slot is
already unlinked and whose flags hold SH4_SLOWMEM, as left behind by a
fastmem fault. -/
def cacheStale : sh4_cache :=
  { store := [(0, { guest_addr := 100, guest_size := 4,
                    host_addr := 500, host_size := 8, flags := SH4_SLOWMEM })],
    blocks := [0], reverse_blocks := [0],
    code := fun _ => 0, default_code := 0, next_id := 1, backend_resets := 0 }

/-- Guest whose stream at 0 is: a DELAYED instruction whose delay slot
carries SET_FPSCR (and no flag on the DELAYED instruction itself beyond
DELAYED), followed by an INVALID instruction. The spec's termination rule
would end the block at the first instruction; the source walks on to the
INVALID one. -/
def guestDelayFpscr : Guest :=
  { r16 := fun a => a / 2,
    getOpdef := fun w =>
      if w = 0 then { flags := { delayed := true } }
      else if w = 1 then { flags := { set_fpscr := true } }
      else { flags := { invalid := true } },
    cb := fun _ _ _ => [] }

/-- Guest whose every instruction is INVALID; its translate callback
emits one non-branch IR instruction. -/
def guestInvalid : Guest :=
  { r16 := fun _ => 0,
    getOpdef := fun _ => { flags := { invalid := true } },
    cb := fun _ _ _ => [IRInstr.other 7] }

/-!
Theorems. Helper lemmas come first, then one theorem per claim (with its
witness or counterexample where required).
-/

/-- An entry selected by the fold of pickMaxLe either was the seed or is a
member of the list with key at most the limit. -/
theorem pickFold_origin (key : sh4_block → Nat) (limit : Nat) :
    ∀ (l : List (Nat × sh4_block)) (acc : Option (Nat × sh4_block))
      (e : Nat × sh4_block),
      l.foldl (pickStep key limit) acc = some e →
      acc = some e ∨ (e ∈ l ∧ key e.2 ≤ limit) := by
  intro l
  induction l with
  | nil => intro acc e h; exact Or.inl h
  | cons x l ih =>
    intro acc e h
    rcases ih (pickStep key limit acc x) e h with h1 | h1
    · unfold pickStep at h1
      split at h1
      · rename_i hle
        cases acc with
        | none =>
          simp only [Option.some.injEq] at h1
          exact Or.inr ⟨by simp [h1.symm], h1 ▸ hle⟩
        | some b =>
          simp only at h1
          split at h1
          · simp only [Option.some.injEq] at h1
            exact Or.inr ⟨by simp [h1.symm], h1 ▸ hle⟩
          · exact Or.inl h1
      · exact Or.inl h1
    · exact Or.inr ⟨List.mem_cons_of_mem _ h1.1, h1.2⟩

/-- pickMaxLe returns a member of the list whose key is at most the
limit. -/
theorem pickMaxLe_mem (key : sh4_block → Nat) (limit : Nat)
    (l : List (Nat × sh4_block)) (e : Nat × sh4_block)
    (h : pickMaxLe key limit l = some e) : e ∈ l ∧ key e.2 ≤ limit := by
  rcases pickFold_origin key limit l none e h with h1 | h1
  · cases h1
  · exact h1

/-- A resolved entry of the reverse tree: the id is a member and the block
is its heap value. -/
theorem mem_revEntries (c : sh4_cache) (id : Nat) (b : sh4_block)
    (h : (id, b) ∈ revEntries c) :
    id ∈ c.reverse_blocks ∧ c.store.lookup id = some b := by
  rcases List.mem_filterMap.mp h with ⟨i, hi, he⟩
  rcases Option.map_eq_some'.mp he with ⟨b2, hb2, hpair⟩
  obtain ⟨rfl, rfl⟩ : i = id ∧ b2 = b := by
    exact ⟨congrArg Prod.fst hpair, congrArg Prod.snd hpair⟩
  exact ⟨hi, hb2⟩

/-- A resolved entry of the forward tree: the id is a member and the block
is its heap value. -/
theorem mem_fwdEntries (c : sh4_cache) (id : Nat) (b : sh4_block)
    (h : (id, b) ∈ fwdEntries c) :
    id ∈ c.blocks ∧ c.store.lookup id = some b := by
  rcases List.mem_filterMap.mp h with ⟨i, hi, he⟩
  rcases Option.map_eq_some'.mp he with ⟨b2, hb2, hpair⟩
  obtain ⟨rfl, rfl⟩ : i = id ∧ b2 = b := by
    exact ⟨congrArg Prod.fst hpair, congrArg Prod.snd hpair⟩
  exact ⟨hi, hb2⟩

/-- C1: sh4_cache_remove_blocks does not respect guest footprints. The
block of cacheOne covers [0x8C000100, 0x8C000108), which does not contain
0x8C000200, yet remove_blocks(0x8C000200) removes it: the discovery probe
sh4_cache_lookup_block returns the predecessor block without any footprint
bound, contradicting the source's own comment (remove any block which
overlaps the address). The spec's concrete two-block scenario does hold,
as the last two conjuncts show. -/
theorem remove_blocks_removes_noncovering_block :
    sh4_cache_get_block
        (sh4_cache_remove_blocks (fun a => a) cacheOne 0x8C000200) 0x8C000100
      = none
    ∧ ¬(0x8C000100 ≤ 0x8C000200 ∧ 0x8C000200 < 0x8C000100 + 8)
    ∧ sh4_cache_get_block
        (sh4_cache_remove_blocks (fun a => a) cacheTwo 0x8C000104) 0x8C000200
      ≠ none
    ∧ sh4_cache_get_block
        (sh4_cache_remove_blocks (fun a => a) cacheTwo 0x8C000104) 0x8C000100
      = none := by
  decide

/-- C2 (counterexample): with the only block's host footprint
[1000, 1016) and a faulting pc of 2000, well past host_addr + host_size,
the handler still treats the block as owning the fault when the backend
accepts: it returns true and mutates the block's flags, where the claim
requires returning not-mine with the cache unchanged. -/
theorem handle_exception_no_host_size_check :
    (sh4_cache_handle_exception (fun a => a) cacheHost 2000 true).1 = true
    ∧ ¬(2000 < 1000 + 16)
    ∧ (sh4_cache_handle_exception (fun a => a) cacheHost 2000 true).2.store.lookup 0
        = some { guest_addr := 0x100, guest_size := 4,
                 host_addr := 1000, host_size := 16, flags := SH4_SLOWMEM } := by
  decide

/-- C2 (amended): the fastmem exception handler returns not-mine exactly
when the reverse probe finds no block with host_addr at most the faulting
pc or the backend declines; in that case the cache is left unchanged. No
host_size containment test is performed by the cache: whenever the
handler does claim the fault, all that is known is that the probed
block's host_addr is at most the pc and the backend accepted. -/
theorem handle_exception_not_mine_iff (bo : Nat → Nat) (c : sh4_cache)
    (pc : Nat) (acc : Bool) :
    ((sh4_cache_handle_exception bo c pc acc).1 = false
      ↔ (sh4_cache_lookup_block_reverse c pc = none ∨ acc = false))
    ∧ ((sh4_cache_handle_exception bo c pc acc).1 = false →
        (sh4_cache_handle_exception bo c pc acc).2 = c)
    ∧ ((sh4_cache_handle_exception bo c pc acc).1 = true →
        ∃ id b, sh4_cache_lookup_block_reverse c pc = some (id, b)
          ∧ b.host_addr ≤ pc ∧ acc = true) := by
  cases hL : sh4_cache_lookup_block_reverse c pc with
  | none => simp [sh4_cache_handle_exception, hL]
  | some e =>
    obtain ⟨id, b⟩ := e
    have hb : b.host_addr ≤ pc :=
      (pickMaxLe_mem (fun b => b.host_addr) pc (revEntries c) (id, b) hL).2
    cases acc with
    | false => simp [sh4_cache_handle_exception, hL]
    | true =>
      simp only [sh4_cache_handle_exception, hL, Bool.not_true,
        Bool.false_eq_true, if_false]
      refine ⟨by simp, by simp, fun _ => ⟨id, b, rfl, hb, by simp⟩⟩

/-- The analyze walk keeps guest_size equal to twice num_instrs and makes
the instruction count strictly grow, over any completed run of its
loop. -/
theorem analyzeLoop_size_aux (g : Guest) :
    ∀ fuel addr t r, analyzeLoop g fuel addr t = some r →
      r.guest_size + 2 * t.num_instrs = t.guest_size + 2 * r.num_instrs
      ∧ t.num_instrs + 1 ≤ r.num_instrs := by
  intro fuel
  induction fuel with
  | zero => intro addr t r h; simp [analyzeLoop] at h
  | succ n ih =>
    intro addr t r h
    simp only [analyzeLoop] at h
    split at h
    · split at h
      · cases h
      · split at h
        · obtain rfl : _ = r := Option.some.inj h
          constructor <;> (dsimp only; omega)
        · split at h
          · obtain rfl : _ = r := Option.some.inj h
            constructor <;> (dsimp only; omega)
          · have h2 := ih _ _ _ h
            simp only at h2
            omega
    · split at h
      · obtain rfl : _ = r := Option.some.inj h
        constructor <;> (dsimp only; omega)
      · split at h
        · obtain rfl : _ = r := Option.some.inj h
          constructor <;> (dsimp only; omega)
        · have h2 := ih _ _ _ h
          simp only at h2
          omega

/-- C10: whenever sh4_analyze_block completes, the analyzed block
satisfies guest_size = 2 * num_instrs and num_instrs is at least 1: every
iteration adds 2 bytes and one instruction (twice so for a DELAYED
instruction with its delay slot), and one instruction is consumed before
any termination test. -/
theorem analyze_block_size (g : Guest) (fuel a : Nat) (r : BlockTotals)
    (h : sh4_analyze_block g fuel a = some r) :
    r.guest_size = 2 * r.num_instrs ∧ 1 ≤ r.num_instrs := by
  have h2 := analyzeLoop_size_aux g fuel a {} r h
  have hz : (({} : BlockTotals)).num_instrs = 0 := rfl
  have hz2 : (({} : BlockTotals)).guest_size = 0 := rfl
  omega

/-- C10 (witness): a one-instruction stream, evaluated concretely. -/
theorem analyze_block_size_w :
    sh4_analyze_block guestInvalid 4 0
        = some { guest_size := 2, num_cycles := 1, num_instrs := 1 }
    ∧ (2 : Nat) = 2 * 1 ∧ (1 : Nat) ≤ 1 := by
  have h := analyze_block_size guestInvalid 4 0
    { guest_size := 2, num_cycles := 1, num_instrs := 1 } (by decide)
  exact ⟨by decide, h.1, h.2⟩

/-- C6 (counterexample): on guestDelayFpscr, the spec's termination rule
(the delay slot's SET_FPSCR ends the block at the first, DELAYED
instruction, for totals of 4 bytes and 2 instructions) disagrees with the
source walk, which consults only the DELAYED instruction's own flags and
walks on to the following INVALID instruction, for totals of 6 bytes and
3 instructions. -/
theorem analyze_block_delay_slot_flags_cex :
    sh4_analyze_block guestDelayFpscr 8 0
        = some { guest_size := 6, num_cycles := 3, num_instrs := 3 }
    ∧ spec_analyze_block guestDelayFpscr 8 0
        = some { guest_size := 4, num_cycles := 2, num_instrs := 2 }
    ∧ sh4_analyze_block guestDelayFpscr 8 0
        ≠ spec_analyze_block guestDelayFpscr 8 0 := by
  decide

/-- Completed analyze walks stop exactly at the first instruction
satisfying the source's termination test (instrTerm), with every visited
DELAYED instruction passing the delay-slot CHECK (instrOk), and
accumulate the totals of everything through the terminator. -/
theorem analyzeLoop_first_terminator (g : Guest) :
    ∀ fuel a t r, analyzeLoop g fuel a t = some r →
      ∃ n, n < fuel
        ∧ (∀ k, k < n → instrOk g (walkAddr g a k) = true
            ∧ instrTerm g (walkAddr g a k) = false)
        ∧ instrOk g (walkAddr g a n) = true
        ∧ instrTerm g (walkAddr g a n) = true
        ∧ r = walkTotalsFrom g a t (n + 1) := by
  intro fuel
  induction fuel with
  | zero => intro a t r h; simp [analyzeLoop] at h
  | succ m ih =>
    intro a t r h
    simp only [analyzeLoop] at h
    split at h
    · rename_i hd
      split at h
      · cases h
      · rename_i hdd
        rw [Bool.not_eq_true] at hdd
        split at h
        · rename_i hinv
          obtain rfl : _ = r := Option.some.inj h
          refine ⟨0, Nat.succ_pos m, by omega, ?_, ?_, ?_⟩
          · simp [instrOk, walkAddr, hd, hdd]
          · simp only [instrTerm, walkAddr, hd]
            simp only [Bool.true_and]
            rcases Bool.or_eq_true_iff.mp hinv with h1 | h1 <;>
              simp [h1]
          · simp [walkTotalsFrom, instrTotals, hd]
        · rename_i hinv
          rw [Bool.not_eq_true, Bool.or_eq_false_iff] at hinv
          split at h
          · rename_i hfl
            obtain rfl : _ = r := Option.some.inj h
            refine ⟨0, Nat.succ_pos m, by omega, ?_, ?_, ?_⟩
            · simp [instrOk, walkAddr, hd, hdd]
            · simp [instrTerm, walkAddr, hd, hfl, hinv.1, hinv.2, hdd]
            · simp [walkTotalsFrom, instrTotals, hd]
          · rename_i hfl
            rw [Bool.not_eq_true] at hfl
            obtain ⟨n, hn, hpre, hok, hterm, hr⟩ := ih _ _ _ h
            have hstep : stepAddr g a = a + 4 := by simp [stepAddr, hd]
            have hwa : ∀ k, walkAddr g a (k + 1) = walkAddr g (a + 4) k := by
              intro k
              show walkAddr g (stepAddr g a) k = _
              rw [hstep]
            refine ⟨n + 1, by omega, ?_, ?_, ?_, ?_⟩
            · intro k hk
              match k with
              | 0 =>
                constructor
                · simp [instrOk, walkAddr, hd, hdd]
                · have hfl3 := Bool.or_eq_false_iff.mp
                    (Bool.or_eq_false_iff.mp hfl).1
                  simp [instrTerm, walkAddr, hd, hdd, hinv.1, hinv.2,
                    hfl3.1, hfl3.2, (Bool.or_eq_false_iff.mp hfl).2]
              | k + 1 =>
                rw [hwa k]
                exact hpre k (by omega)
            · rw [hwa n]; exact hok
            · rw [hwa n]; exact hterm
            · have : walkTotalsFrom g a t (n + 1 + 1)
                  = walkTotalsFrom g (a + 4) (instrTotals g a t) (n + 1) := by
                show walkTotalsFrom g (stepAddr g a) (instrTotals g a t) (n + 1) = _
                rw [hstep]
              rw [this, hr]
              have h2 : instrTotals g a t
                  = { guest_size := t.guest_size + 2 + 2,
                      num_cycles := t.num_cycles
                        + (g.getOpdef (g.r16 a)).cycles
                        + (g.getOpdef (g.r16 (a + 2))).cycles,
                      num_instrs := t.num_instrs + 1 + 1 } := by
                simp [instrTotals, hd]
              rw [h2]
    · rename_i hd
      rw [Bool.not_eq_true] at hd
      split at h
      · rename_i hinv
        obtain rfl : _ = r := Option.some.inj h
        refine ⟨0, Nat.succ_pos m, by omega, ?_, ?_, ?_⟩
        · simp [instrOk, walkAddr, hd]
        · simp [instrTerm, walkAddr, hinv]
        · simp [walkTotalsFrom, instrTotals, hd]
      · rename_i hinv
        rw [Bool.not_eq_true] at hinv
        split at h
        · rename_i hfl
          obtain rfl : _ = r := Option.some.inj h
          refine ⟨0, Nat.succ_pos m, by omega, ?_, ?_, ?_⟩
          · simp [instrOk, walkAddr, hd]
          · simp [instrTerm, walkAddr, hfl, hinv, hd]
          · simp [walkTotalsFrom, instrTotals, hd]
        · rename_i hfl
          rw [Bool.not_eq_true] at hfl
          obtain ⟨n, hn, hpre, hok, hterm, hr⟩ := ih _ _ _ h
          have hstep : stepAddr g a = a + 2 := by simp [stepAddr, hd]
          have hwa : ∀ k, walkAddr g a (k + 1) = walkAddr g (a + 2) k := by
            intro k
            show walkAddr g (stepAddr g a) k = _
            rw [hstep]
          refine ⟨n + 1, by omega, ?_, ?_, ?_, ?_⟩
          · intro k hk
            match k with
            | 0 =>
              constructor
              · simp [instrOk, walkAddr, hd]
              · have hfl3 := Bool.or_eq_false_iff.mp
                  (Bool.or_eq_false_iff.mp hfl).1
                simp [instrTerm, walkAddr, hd, hinv,
                  hfl3.1, hfl3.2, (Bool.or_eq_false_iff.mp hfl).2]
            | k + 1 =>
              rw [hwa k]
              exact hpre k (by omega)
          · rw [hwa n]; exact hok
          · rw [hwa n]; exact hterm
          · have : walkTotalsFrom g a t (n + 1 + 1)
                = walkTotalsFrom g (a + 2) (instrTotals g a t) (n + 1) := by
              show walkTotalsFrom g (stepAddr g a) (instrTotals g a t) (n + 1) = _
              rw [hstep]
            rw [this, hr]
            have h2 : instrTotals g a t
                = { guest_size := t.guest_size + 2,
                    num_cycles := t.num_cycles + (g.getOpdef (g.r16 a)).cycles,
                    num_instrs := t.num_instrs + 1 } := by
              simp [instrTotals, hd]
            rw [h2]

/-- C6 (amended): a completed sh4_analyze_block run stops after the first
main instruction that is INVALID, or is DELAYED with an INVALID delay
slot, or whose own flags hold BRANCH, SET_FPSCR or SET_SR — the delay
slot's BRANCH/SET_FPSCR/SET_SR flags are not consulted by the termination
test — with every visited DELAYED instruction's delay slot non-DELAYED
(the hard CHECK), and the totals accumulate everything through the
terminator, a delay slot counting as an additional instruction. -/
theorem analyze_block_first_terminator (g : Guest) (fuel a : Nat)
    (r : BlockTotals) (h : sh4_analyze_block g fuel a = some r) :
    ∃ n, n < fuel
      ∧ (∀ k, k < n → instrOk g (walkAddr g a k) = true
          ∧ instrTerm g (walkAddr g a k) = false)
      ∧ instrOk g (walkAddr g a n) = true
      ∧ instrTerm g (walkAddr g a n) = true
      ∧ r = walkTotalsFrom g a {} (n + 1) :=
  analyzeLoop_first_terminator g fuel a {} r h

/-- C6 (amended, witness): on guestDelayFpscr the walk of the source
completes with totals for three instructions. -/
theorem analyze_block_first_terminator_w :
    sh4_analyze_block guestDelayFpscr 8 0
        = some { guest_size := 6, num_cycles := 3, num_instrs := 3 }
    ∧ ∃ n, n < 8
        ∧ (∀ k, k < n → instrOk guestDelayFpscr (walkAddr guestDelayFpscr 0 k) = true
            ∧ instrTerm guestDelayFpscr (walkAddr guestDelayFpscr 0 k) = false)
        ∧ instrOk guestDelayFpscr (walkAddr guestDelayFpscr 0 n) = true
        ∧ instrTerm guestDelayFpscr (walkAddr guestDelayFpscr 0 n) = true
        ∧ { guest_size := 6, num_cycles := 3, num_instrs := 3 }
            = walkTotalsFrom guestDelayFpscr 0 {} (n + 1) :=
  ⟨by decide, analyze_block_first_terminator guestDelayFpscr 8 0
    { guest_size := 6, num_cycles := 3, num_instrs := 3 } (by decide)⟩

/-- Looking a key up after filtering that key out of the heap misses;
any other key is unaffected. -/
theorem lookup_filter_ne (id : Nat) :
    ∀ (s : List (Nat × sh4_block)) (j : Nat),
      (s.filter (fun e => e.1 != id)).lookup j
        = if j = id then none else s.lookup j := by
  intro s
  induction s with
  | nil => intro j; simp [List.lookup]
  | cons x s ih =>
    intro j
    by_cases hx : x.1 = id
    · have hdrop : (x.1 != id) = false := by simp [hx]
      by_cases hj : j = id
      · simp [List.filter_cons, hdrop, ih, hj]
      · simp only [List.filter_cons, hdrop, Bool.false_eq_true, if_false,
          ih, if_neg hj]
        have hne : (j == x.1) = false := by
          simp [hx]
          omega
        obtain ⟨x1, x2⟩ := x
        simp only at hne
        simp [List.lookup, hne]
    · have hkeep : (x.1 != id) = true := by simp [hx]
      obtain ⟨x1, x2⟩ := x
      simp only at hkeep hx
      by_cases hj : j = x1
      · subst hj
        simp [List.filter_cons, hkeep, List.lookup, hx]
      · have hne : (j == x1) = false := by simp [hj]
        simp [List.filter_cons, hkeep, List.lookup, hne, ih]

/-- A key absent from the heap stays absent after any filtering. -/
theorem lookup_filter_none (p : Nat × sh4_block → Bool) :
    ∀ (s : List (Nat × sh4_block)) (j : Nat), s.lookup j = none →
      (s.filter p).lookup j = none := by
  intro s
  induction s with
  | nil => intro j _; simp
  | cons x s ih =>
    intro j h
    obtain ⟨x1, x2⟩ := x
    by_cases hj : j = x1
    · subst hj
      simp [List.lookup] at h
    · have hne : (j == x1) = false := by simp [hj]
      simp only [List.lookup, hne] at h
      by_cases hp : p (x1, x2) = true
      · simp [List.filter_cons, hp, List.lookup, hne, ih _ h]
      · simp only [Bool.not_eq_true] at hp
        simp [List.filter_cons, hp, ih _ h]

/-- A key absent from the heap means no entry carries that key. -/
theorem lookup_none_keys :
    ∀ (s : List (Nat × sh4_block)) (j : Nat), s.lookup j = none →
      ∀ e ∈ s, e.1 ≠ j := by
  intro s
  induction s with
  | nil => intro j _ e he; cases he
  | cons x s ih =>
    intro j h e he
    obtain ⟨x1, x2⟩ := x
    by_cases hj : j = x1
    · subst hj
      simp [List.lookup] at h
    · have hne : (j == x1) = false := by simp [hj]
      simp only [List.lookup, hne] at h
      rcases List.mem_cons.mp he with rfl | he2
      · simp
        omega
      · exact ih j h e he2

/-- Lookup through the flags-update map of the exception handler: the
updated id resolves to the updated block, everything else is
untouched. -/
theorem lookup_mapUpdate (id : Nat) (f : sh4_block → sh4_block) :
    ∀ (s : List (Nat × sh4_block)) (j : Nat),
      (s.map (fun e => if e.1 = id then (id, f e.2) else e)).lookup j
        = if j = id then (s.lookup j).map f else s.lookup j := by
  intro s
  induction s with
  | nil => intro j; simp [List.lookup]
  | cons x s ih =>
    intro j
    obtain ⟨x1, x2⟩ := x
    simp only [List.map_cons]
    by_cases hx : x1 = id
    · have hxb : (id == x1) = true := beq_iff_eq.mpr hx.symm
      rw [if_pos hx]
      by_cases hj : j = id
      · have hbeq : (j == id) = true := by simp [hj]
        have hbeq2 : (j == x1) = true := by simp [hj, hx]
        simp [List.lookup, hbeq, hbeq2, hj, hxb]
      · have hbeq : (j == id) = false := by simp [hj]
        have hbeq2 : (j == x1) = false := by simp [hx, hj]
        simp [List.lookup, hbeq, hbeq2, ih, hj]
    · have hxb : (id == x1) = false := beq_eq_false_iff_ne.mpr (fun h => hx h.symm)
      rw [if_neg hx]
      by_cases hj : j = x1
      · have hji : j ≠ id := by rw [hj]; exact hx
        have hbeq : (j == x1) = true := by simp [hj]
        simp [List.lookup, hbeq, hji]
      · have hbeq : (j == x1) = false := by simp [hj]
        by_cases hji : j = id
        · simp [List.lookup, hbeq, ih, hji, hxb]
        · simp [List.lookup, hbeq, ih, hji, hxb]

/-- Removing an id with no heap entry is a no-op (the source cannot reach
this case: tree members always resolve). -/
theorem remove_block_none (bo : Nat → Nat) {c : sh4_cache} {id : Nat}
    (h : c.store.lookup id = none) :
    sh4_cache_remove_block bo c id = c := by
  simp [sh4_cache_remove_block, h]

/-- Removing a resolved id: the dispatch slot reverts to the default and
the id leaves both trees and the heap. -/
theorem remove_block_some (bo : Nat → Nat) {c : sh4_cache} {id : Nat}
    {b : sh4_block} (h : c.store.lookup id = some b) :
    sh4_cache_remove_block bo c id =
      { store := c.store.filter (fun e => e.1 != id),
        blocks := c.blocks.filter (fun j => j != id),
        reverse_blocks := c.reverse_blocks.filter (fun j => j != id),
        code := updateFn c.code (bo b.guest_addr) c.default_code,
        default_code := c.default_code,
        next_id := c.next_id,
        backend_resets := c.backend_resets } := by
  simp [sh4_cache_remove_block, h, sh4_cache_unlink_block]

/-- Folding sh4_cache_remove_block over a list of ids (the iteration of
sh4_cache_clear_blocks) filters exactly the resolvable listed ids out of
both trees, drops the listed ids from the heap, and leaves the default
code pointer, the id counter and the reset counter alone. -/
theorem foldl_remove_char (bo : Nat → Nat) :
    ∀ (l : List Nat) (c : sh4_cache),
      (l.foldl (fun acc i => sh4_cache_remove_block bo acc i) c).blocks
          = c.blocks.filter
              (fun j => !(l.contains j && (c.store.lookup j).isSome))
      ∧ (l.foldl (fun acc i => sh4_cache_remove_block bo acc i) c).reverse_blocks
          = c.reverse_blocks.filter
              (fun j => !(l.contains j && (c.store.lookup j).isSome))
      ∧ (l.foldl (fun acc i => sh4_cache_remove_block bo acc i) c).store
          = c.store.filter (fun e => !(l.contains e.1))
      ∧ (l.foldl (fun acc i => sh4_cache_remove_block bo acc i) c).default_code
          = c.default_code
      ∧ (l.foldl (fun acc i => sh4_cache_remove_block bo acc i) c).next_id
          = c.next_id
      ∧ (l.foldl (fun acc i => sh4_cache_remove_block bo acc i) c).backend_resets
          = c.backend_resets := by
  intro l
  induction l with
  | nil =>
    intro c
    refine ⟨?_, ?_, ?_, rfl, rfl, rfl⟩ <;> simp
  | cons i l ih =>
    intro c
    rw [List.foldl_cons]
    cases hs : c.store.lookup i with
    | none =>
      rw [remove_block_none bo hs]
      obtain ⟨h1, h2, h3, h4, h5, h6⟩ := ih c
      refine ⟨?_, ?_, ?_, h4, h5, h6⟩
      · rw [h1]
        apply List.filter_congr
        intro j hj
        by_cases hji : j = i
        · subst hji
          simp [hs]
        · have hb : (j == i) = false := by simp [hji]
          simp [List.contains_cons, hb, hji]
      · rw [h2]
        apply List.filter_congr
        intro j hj
        by_cases hji : j = i
        · subst hji
          simp [hs]
        · have hb : (j == i) = false := by simp [hji]
          simp [List.contains_cons, hb, hji]
      · rw [h3]
        apply List.filter_congr
        intro e he
        have hne := lookup_none_keys c.store i hs e he
        have hb : (e.1 == i) = false := by simp [hne]
        simp [List.contains_cons, hb, hne]
    | some b =>
      rw [remove_block_some bo hs]
      obtain ⟨h1, h2, h3, h4, h5, h6⟩ := ih
        { store := c.store.filter (fun e => e.1 != i),
          blocks := c.blocks.filter (fun j => j != i),
          reverse_blocks := c.reverse_blocks.filter (fun j => j != i),
          code := updateFn c.code (bo b.guest_addr) c.default_code,
          default_code := c.default_code,
          next_id := c.next_id,
          backend_resets := c.backend_resets }
      refine ⟨?_, ?_, ?_, h4, h5, h6⟩
      · rw [h1]
        simp only [List.filter_filter]
        apply List.filter_congr
        intro j hj
        by_cases hji : j = i
        · subst hji
          simp [hs]
        · have hb : (j == i) = false := by simp [hji]
          have hbn : (j != i) = true := by simp [hji]
          simp only [lookup_filter_ne, if_neg hji, List.contains_cons, hb,
            Bool.false_or, hbn, Bool.and_true]
      · rw [h2]
        simp only [List.filter_filter]
        apply List.filter_congr
        intro j hj
        by_cases hji : j = i
        · subst hji
          simp [hs]
        · have hb : (j == i) = false := by simp [hji]
          have hbn : (j != i) = true := by simp [hji]
          simp only [lookup_filter_ne, if_neg hji, List.contains_cons, hb,
            Bool.false_or, hbn, Bool.and_true]
      · rw [h3]
        simp only [List.filter_filter]
        apply List.filter_congr
        intro e he
        by_cases hei : e.1 = i
        · have hb : (e.1 == i) = true := by simp [hei]
          have hbn : (e.1 != i) = false := by simp [hei]
          simp [List.contains_cons, hb, hbn, hei]
        · have hb : (e.1 == i) = false := by simp [hei]
          have hbn : (e.1 != i) = true := by simp [hei]
          simp [List.contains_cons, hb, hbn, hei]

/-- Along a fold of removals, every dispatch slot either keeps its value
or reverts to the default code pointer. -/
theorem foldl_remove_code_default (bo : Nat → Nat) :
    ∀ (l : List Nat) (c : sh4_cache) (o : Nat),
      (l.foldl (fun acc i => sh4_cache_remove_block bo acc i) c).code o
          = c.code o
      ∨ (l.foldl (fun acc i => sh4_cache_remove_block bo acc i) c).code o
          = c.default_code := by
  intro l
  induction l with
  | nil => intro c o; exact Or.inl rfl
  | cons i l ih =>
    intro c o
    rw [List.foldl_cons]
    cases hs : c.store.lookup i with
    | none =>
      rw [remove_block_none bo hs]
      exact ih c o
    | some b =>
      rw [remove_block_some bo hs]
      rcases ih
          { store := c.store.filter (fun e => e.1 != i),
            blocks := c.blocks.filter (fun j => j != i),
            reverse_blocks := c.reverse_blocks.filter (fun j => j != i),
            code := updateFn c.code (bo b.guest_addr) c.default_code,
            default_code := c.default_code,
            next_id := c.next_id,
            backend_resets := c.backend_resets } o with h | h
      · rw [h]
        simp only [updateFn]
        by_cases ho : o = bo b.guest_addr
        · rw [if_pos ho]
          exact Or.inr rfl
        · rw [if_neg ho]
          exact Or.inl rfl
      · rw [h]
        exact Or.inr rfl

/-- After folding removals over a list containing a resolvable id, that
block's dispatch slot holds the default code pointer. -/
theorem foldl_remove_code_hit (bo : Nat → Nat) :
    ∀ (l : List Nat) (c : sh4_cache) (j : Nat) (bj : sh4_block),
      j ∈ l → c.store.lookup j = some bj →
      (l.foldl (fun acc i => sh4_cache_remove_block bo acc i) c).code
          (bo bj.guest_addr)
        = c.default_code := by
  intro l
  induction l with
  | nil => intro c j bj hmem _; cases hmem
  | cons i l ih =>
    intro c j bj hmem hl
    rw [List.foldl_cons]
    by_cases hji : j = i
    · subst hji
      rw [remove_block_some bo hl]
      rcases foldl_remove_code_default bo l
        { store := c.store.filter (fun e => e.1 != j),
          blocks := c.blocks.filter (fun k => k != j),
          reverse_blocks := c.reverse_blocks.filter (fun k => k != j),
          code := updateFn c.code (bo bj.guest_addr) c.default_code,
          default_code := c.default_code,
          next_id := c.next_id,
          backend_resets := c.backend_resets } (bo bj.guest_addr) with h | h
      · rw [h]
        simp [updateFn]
      · rw [h]
    · have hm2 : j ∈ l := by
        rcases List.mem_cons.mp hmem with h | h
        · exact absurd h hji
        · exact h
      cases hs : c.store.lookup i with
      | none =>
        rw [remove_block_none bo hs]
        exact ih c j bj hm2 hl
      | some b =>
        rw [remove_block_some bo hs]
        have hl2 : (c.store.filter (fun e => e.1 != i)).lookup j = some bj := by
          rw [lookup_filter_ne, if_neg hji]
          exact hl
        exact ih _ j bj hm2 hl2

/-- sh4_cache_remove_block unlinks the node from both trees at once, so
equality of the two memberships survives it. -/
theorem remove_block_sameIds (bo : Nat → Nat) (c : sh4_cache) (id : Nat)
    (h : sameIds c) : sameIds (sh4_cache_remove_block bo c id) := by
  cases hs : c.store.lookup id with
  | none => rw [remove_block_none bo hs]; exact h
  | some b =>
    rw [remove_block_some bo hs]
    intro i
    simp only [List.mem_filter]
    rw [h i]

/-- The removal loop of sh4_cache_remove_blocks preserves the equality of
the two memberships. -/
theorem removeBlocksLoop_sameIds (bo : Nat → Nat) :
    ∀ (fuel : Nat) (c : sh4_cache) (a : Nat), sameIds c →
      sameIds (removeBlocksLoop bo fuel c a) := by
  intro fuel
  induction fuel with
  | zero => intro c a h; exact h
  | succ n ih =>
    intro c a h
    cases hL : sh4_cache_lookup_block c a with
    | none =>
      have he : removeBlocksLoop bo (n + 1) c a = c := by
        simp [removeBlocksLoop, hL]
      rw [he]; exact h
    | some e =>
      have he : removeBlocksLoop bo (n + 1) c a
          = removeBlocksLoop bo n (sh4_cache_remove_block bo c e.1) a := by
        simp [removeBlocksLoop, hL]
      rw [he]
      exact ih _ a (remove_block_sameIds bo c e.1 h)

/-- The fold of sh4_cache_unlink_blocks only rewrites dispatch slots: both
trees and the heap are untouched. -/
theorem foldl_unlink_fields (bo : Nat → Nat) :
    ∀ (l : List Nat) (c : sh4_cache),
      (l.foldl (fun acc id =>
          match acc.store.lookup id with
          | none => acc
          | some b => sh4_cache_unlink_block bo acc b) c).blocks = c.blocks
      ∧ (l.foldl (fun acc id =>
          match acc.store.lookup id with
          | none => acc
          | some b => sh4_cache_unlink_block bo acc b) c).reverse_blocks
          = c.reverse_blocks
      ∧ (l.foldl (fun acc id =>
          match acc.store.lookup id with
          | none => acc
          | some b => sh4_cache_unlink_block bo acc b) c).store = c.store := by
  intro l
  induction l with
  | nil => intro c; exact ⟨rfl, rfl, rfl⟩
  | cons i l ih =>
    intro c
    rw [List.foldl_cons]
    cases hs : c.store.lookup i with
    | none =>
      simp only [hs]
      exact ih c
    | some b =>
      simp only [hs]
      exact ih (sh4_cache_unlink_block bo c b)

/-- Field effect of sh4_cache_clear_blocks: both trees are emptied of
every resolvable member, the heap drops every forward member, the reset
counter is bumped, and the default pointer and id counter stay. -/
theorem clear_blocks_char (bo : Nat → Nat) (c : sh4_cache) :
    (sh4_cache_clear_blocks bo c).blocks
        = c.blocks.filter
            (fun j => !(c.blocks.contains j && (c.store.lookup j).isSome))
    ∧ (sh4_cache_clear_blocks bo c).reverse_blocks
        = c.reverse_blocks.filter
            (fun j => !(c.blocks.contains j && (c.store.lookup j).isSome))
    ∧ (sh4_cache_clear_blocks bo c).store
        = c.store.filter (fun e => !(c.blocks.contains e.1))
    ∧ (sh4_cache_clear_blocks bo c).default_code = c.default_code
    ∧ (sh4_cache_clear_blocks bo c).next_id = c.next_id
    ∧ (sh4_cache_clear_blocks bo c).backend_resets = c.backend_resets + 1 := by
  obtain ⟨h1, h2, h3, h4, h5, h6⟩ := foldl_remove_char bo c.blocks c
  exact ⟨h1, h2, h3, h4, h5, by
    show (c.blocks.foldl (fun acc i => sh4_cache_remove_block bo acc i)
      c).backend_resets + 1 = c.backend_resets + 1
    rw [h6]⟩

/-- sh4_cache_clear_blocks preserves the equality of the two
memberships. -/
theorem clear_blocks_sameIds (bo : Nat → Nat) (c : sh4_cache)
    (h : sameIds c) : sameIds (sh4_cache_clear_blocks bo c) := by
  intro i
  obtain ⟨h1, h2, -, -, -, -⟩ := clear_blocks_char bo c
  rw [h1, h2]
  simp only [List.mem_filter]
  rw [h i]

/-- The fastmem exception handler never touches the trees or the heap
membership (it rewrites one dispatch slot and one block's flags). -/
theorem handle_exception_fields (bo : Nat → Nat) (c : sh4_cache) (pc : Nat)
    (acc : Bool) :
    (sh4_cache_handle_exception bo c pc acc).2.blocks = c.blocks
    ∧ (sh4_cache_handle_exception bo c pc acc).2.reverse_blocks
        = c.reverse_blocks := by
  cases hL : sh4_cache_lookup_block_reverse c pc with
  | none => simp [sh4_cache_handle_exception, hL]
  | some e =>
    obtain ⟨id, b⟩ := e
    cases acc with
    | false => simp [sh4_cache_handle_exception, hL]
    | true => simp [sh4_cache_handle_exception, hL, sh4_cache_unlink_block]

/-- Inserting the freshly assembled block links it into both trees at
once. -/
theorem insert_sameIds (bo : Nat → Nat) (c : sh4_cache)
    (ga gs fl ha hsz : Nat) (h : sameIds c) :
    sameIds (insertNewBlock bo c ga gs fl ha hsz).1 := by
  intro i
  simp only [insertNewBlock, List.mem_cons]
  rw [h i]

/-- One walk step advances the address by at least 2. -/
theorem stepAddr_ge (g : Guest) (a : Nat) : a + 2 ≤ stepAddr g a := by
  unfold stepAddr
  split
  · omega
  · omega

/-- The walk never moves backwards. -/
theorem walkAddr_ge (g : Guest) : ∀ m a, a ≤ walkAddr g a m := by
  intro m
  induction m with
  | zero => intro a; exact Nat.le_refl a
  | succ k ih =>
    intro a
    have h1 := stepAddr_ge g a
    have h2 := ih (stepAddr g a)
    calc a ≤ stepAddr g a := by omega
      _ ≤ walkAddr g (stepAddr g a) k := h2
      _ = walkAddr g a (k + 1) := rfl

/-- The walk's address and its accumulated guest_size advance in
lockstep. -/
theorem walkAddr_size (g : Guest) :
    ∀ m a t, a + (walkTotalsFrom g a t m).guest_size
      = t.guest_size + walkAddr g a m := by
  intro m
  induction m with
  | zero => intro a t; simp [walkTotalsFrom, walkAddr, Nat.add_comm]
  | succ k ih =>
    intro a t
    have h1 : walkTotalsFrom g a t (k + 1)
        = walkTotalsFrom g (stepAddr g a) (instrTotals g a t) k := rfl
    have h2 : walkAddr g a (k + 1) = walkAddr g (stepAddr g a) k := rfl
    rw [h1, h2]
    have h3 := ih (stepAddr g a) (instrTotals g a t)
    by_cases hd : (g.getOpdef (g.r16 a)).flags.delayed
    · have hs : stepAddr g a = a + 4 := by simp [stepAddr, hd]
      have ht : (instrTotals g a t).guest_size = t.guest_size + 2 + 2 := by
        simp [instrTotals, hd]
      rw [hs] at h3
      rw [hs]
      omega
    · have hs : stepAddr g a = a + 2 := by simp [stepAddr, hd]
      have ht : (instrTotals g a t).guest_size = t.guest_size + 2 := by
        simp [instrTotals, hd]
      rw [hs] at h3
      rw [hs]
      omega

/-- Running the emit loop of sh4_frontend_translate_code from the start
of a walk to the walk's end address consumes exactly the walk, appends
exactly the callbacks' output, and finishes with addr equal to the end
address; fuel of at least the remaining byte count suffices. -/
theorem translateLoop_run (g : Guest) (flags : Nat) :
    ∀ m a ir0 fuelT, walkAddr g a m - a ≤ fuelT →
      translateLoop g flags fuelT a (walkAddr g a m) ir0
        = some (ir0 ++ walkEmit g flags a m, walkAddr g a m) := by
  intro m
  induction m with
  | zero =>
    intro a ir0 fuelT _
    have hE : walkAddr g a 0 = a := rfl
    rw [hE]
    cases fuelT with
    | zero => simp [translateLoop, walkEmit]
    | succ f => simp [translateLoop, walkEmit]
  | succ k ih =>
    intro a ir0 fuelT hfuel
    have hE : walkAddr g a (k + 1) = walkAddr g (stepAddr g a) k := rfl
    have hlt : a < walkAddr g a (k + 1) := by
      have h1 := stepAddr_ge g a
      have h2 := walkAddr_ge g k (stepAddr g a)
      rw [hE]
      omega
    cases fuelT with
    | zero =>
      have h1 := stepAddr_ge g a
      have h2 := walkAddr_ge g k (stepAddr g a)
      rw [hE] at hfuel
      omega
    | succ f =>
      have hstep : (if (g.getOpdef (g.r16 a)).flags.delayed
          then a + 4 else a + 2) = stepAddr g a := rfl
      have hbody : translateLoop g flags (f + 1) a (walkAddr g a (k + 1)) ir0
          = translateLoop g flags f (stepAddr g a) (walkAddr g a (k + 1))
              (ir0 ++ g.cb flags a (g.r16 a)) := by
        simp only [translateLoop, if_pos hlt, hstep]
      rw [hbody, hE]
      have hrec := ih (stepAddr g a) (ir0 ++ g.cb flags a (g.r16 a)) f (by
        have h1 := stepAddr_ge g a
        have h2 := walkAddr_ge g k (stepAddr g a)
        rw [hE] at hfuel
        omega)
      rw [hrec]
      have : walkEmit g flags a (k + 1)
          = g.cb flags a (g.r16 a) ++ walkEmit g flags (stepAddr g a) k := rfl
      rw [this, List.append_assoc]

/-- C7: after the emit callbacks have run, if the final IR instruction is
neither an unconditional OP_BRANCH nor an OP_FALLBACK whose guest opcode
carries BRANCH, sh4_frontend_translate_code appends a branch to the
constant address guest_addr + guest_size (the emit loop's final address
equals the analyzed block end); consequently the emitted IR of every
completed translation ends in OP_BRANCH or in a BRANCH-flagged
OP_FALLBACK. -/
theorem translate_code_appends_branch (g : Guest) (ctx : TranslateCtx)
    (fuel a : Nat) (t : BlockTotals) (out : List IRInstr)
    (hA : sh4_analyze_block g fuel a = some t)
    (hT : sh4_frontend_translate_code g ctx fuel a = some out) :
    (∃ tl, out.getLast? = some tl ∧ endsInBranch g tl = true)
    ∧ (∀ ir addrF,
        translateLoop g (translateFlags ctx) t.guest_size a
            (a + t.guest_size) [] = some (ir, addrF) →
        addrF = a + t.guest_size
        ∧ (∀ tl, ir.getLast? = some tl → endsInBranch g tl = false →
            out = ir ++ [IRInstr.branch (some (a + t.guest_size))])) := by
  obtain ⟨n, -, -, -, -, hr⟩ := analyzeLoop_first_terminator g fuel a {} t hA
  have hE : a + t.guest_size = walkAddr g a (n + 1) := by
    have h1 := walkAddr_size g (n + 1) a {}
    rw [← hr] at h1
    have hz : (({} : BlockTotals)).guest_size = 0 := rfl
    omega
  have hRun : translateLoop g (translateFlags ctx) t.guest_size a
      (a + t.guest_size) []
      = some (walkEmit g (translateFlags ctx) a (n + 1), a + t.guest_size) := by
    rw [hE]
    have := translateLoop_run g (translateFlags ctx) (n + 1) a [] t.guest_size
      (by omega)
    rw [this]
    simp
  have hT2 : (match (walkEmit g (translateFlags ctx) a (n + 1)).getLast? with
      | none => none
      | some tail =>
        if endsInBranch g tail then
          some (walkEmit g (translateFlags ctx) a (n + 1))
        else
          some (walkEmit g (translateFlags ctx) a (n + 1)
            ++ [IRInstr.branch (some (a + t.guest_size))])) = some out := by
    rw [← hT]
    simp only [sh4_frontend_translate_code, hA, hRun]
  constructor
  · cases hLast : (walkEmit g (translateFlags ctx) a (n + 1)).getLast? with
    | none =>
      simp only [hLast] at hT2
      exact Option.noConfusion hT2
    | some tail =>
      simp only [hLast] at hT2
      by_cases htb : endsInBranch g tail = true
      · rw [if_pos htb] at hT2
        obtain rfl : _ = out := Option.some.inj hT2
        exact ⟨tail, hLast, htb⟩
      · rw [if_neg htb] at hT2
        obtain rfl : _ = out := Option.some.inj hT2
        refine ⟨IRInstr.branch (some (a + t.guest_size)), ?_, rfl⟩
        exact List.getLast?_concat _
  · intro ir addrF hTL
    rw [hRun] at hTL
    obtain ⟨rfl, rfl⟩ : walkEmit g (translateFlags ctx) a (n + 1) = ir
        ∧ a + t.guest_size = addrF := by
      have := Option.some.inj hTL
      exact ⟨congrArg Prod.fst this, congrArg Prod.snd this⟩
    refine ⟨rfl, ?_⟩
    intro tl hLast hnb
    simp only [hLast] at hT2
    rw [if_neg (by simp [hnb])] at hT2
    exact (Option.some.inj hT2).symm

/-- C7 (witness): a one-instruction stream whose callback emits a single
non-branch IR instruction; translate appends the fallthrough branch to
address 0 + 2. -/
theorem translate_code_appends_branch_w :
    sh4_analyze_block guestInvalid 4 0
        = some { guest_size := 2, num_cycles := 1, num_instrs := 1 }
    ∧ sh4_frontend_translate_code guestInvalid
        { fastmem := false, fpscr_pr := false, fpscr_sz := false } 4 0
        = some [IRInstr.other 7, IRInstr.branch (some 2)]
    ∧ ((∃ tl, ([IRInstr.other 7, IRInstr.branch (some 2)] : List IRInstr).getLast?
            = some tl ∧ endsInBranch guestInvalid tl = true)
        ∧ (∀ ir addrF,
            translateLoop guestInvalid
                (translateFlags
                  { fastmem := false, fpscr_pr := false, fpscr_sz := false })
                2 0 (0 + 2) [] = some (ir, addrF) →
            addrF = 0 + 2
            ∧ (∀ tl, ir.getLast? = some tl →
                endsInBranch guestInvalid tl = false →
                [IRInstr.other 7, IRInstr.branch (some 2)]
                  = ir ++ [IRInstr.branch (some (0 + 2))]))) := by
  refine ⟨by decide, by decide, ?_⟩
  exact translate_code_appends_branch guestInvalid
    { fastmem := false, fpscr_pr := false, fpscr_sz := false } 4 0
    { guest_size := 2, num_cycles := 1, num_instrs := 1 }
    [IRInstr.other 7, IRInstr.branch (some 2)] (by decide) (by decide)

/-- C9: every public cache operation preserves the invariant that the
forward and the reverse tree hold the same set of block nodes: blocks
enter both trees at creation (compile) and leave both at removal
(remove_blocks, clear_blocks, the stale-merge of compile), while
unlink_blocks, get_block (pure) and the fastmem exception handler touch
neither membership. -/
theorem indexes_same_set_preserved (bo : Nat → Nat) (maxBlocks : Nat)
    (c : sh4_cache) (ga fl gs pc a : Nat) (acc : Bool)
    (asm1 asm2 : Option (Nat × Nat)) (h : sameIds c) :
    sameIds (sh4_cache_remove_blocks bo c a)
    ∧ sameIds (sh4_cache_unlink_blocks bo c)
    ∧ sameIds (sh4_cache_clear_blocks bo c)
    ∧ sameIds (sh4_cache_handle_exception bo c pc acc).2
    ∧ (∀ c' r, sh4_cache_compile_code bo maxBlocks c ga fl gs asm1 asm2
          = .ok (c', r) → sameIds c') := by
  refine ⟨removeBlocksLoop_sameIds bo _ c a h, ?_,
    clear_blocks_sameIds bo c h, ?_, ?_⟩
  · intro i
    obtain ⟨h1, h2, -⟩ := foldl_unlink_fields bo c.blocks c
    show i ∈ (sh4_cache_unlink_blocks bo c).blocks
      ↔ i ∈ (sh4_cache_unlink_blocks bo c).reverse_blocks
    unfold sh4_cache_unlink_blocks
    rw [h1, h2]
    exact h i
  · intro i
    obtain ⟨h1, h2⟩ := handle_exception_fields bo c pc acc
    rw [h1, h2]
    exact h i
  · intro c' r hOk
    simp only [sh4_cache_compile_code] at hOk
    split at hOk
    · exact Except.noConfusion hOk
    · split at hOk
      · exact Except.noConfusion hOk
      · have hc1 : sameIds (match sh4_cache_get_block c ga with
            | some e => sh4_cache_remove_block bo c e.1
            | none => c) := by
          cases hStale : sh4_cache_get_block c ga with
          | none => exact h
          | some e => exact remove_block_sameIds bo c e.1 h
        cases hStale : sh4_cache_get_block c ga with
        | none =>
          rw [hStale] at hOk hc1
          cases asm1 with
          | some p =>
            obtain ⟨ha, hsz⟩ := p
            have hp := Except.ok.inj hOk
            have hc : (insertNewBlock bo c ga gs fl ha hsz).1 = c' :=
              congrArg Prod.fst hp
            rw [← hc]
            exact insert_sameIds bo c ga gs fl ha hsz h
          | none =>
            cases asm2 with
            | none => exact Except.noConfusion hOk
            | some p =>
              obtain ⟨ha, hsz⟩ := p
              have hp := Except.ok.inj hOk
              have hc : (insertNewBlock bo (sh4_cache_clear_blocks bo c)
                  ga gs fl ha hsz).1 = c' := congrArg Prod.fst hp
              rw [← hc]
              exact insert_sameIds bo _ ga gs fl ha hsz
                (clear_blocks_sameIds bo c h)
        | some e =>
          rw [hStale] at hOk hc1
          cases asm1 with
          | some p =>
            obtain ⟨ha, hsz⟩ := p
            have hp := Except.ok.inj hOk
            have hc : (insertNewBlock bo (sh4_cache_remove_block bo c e.1)
                ga gs (fl ||| e.2.flags) ha hsz).1 = c' :=
              congrArg Prod.fst hp
            rw [← hc]
            exact insert_sameIds bo _ ga gs _ ha hsz
              (remove_block_sameIds bo c e.1 h)
          | none =>
            cases asm2 with
            | none => exact Except.noConfusion hOk
            | some p =>
              obtain ⟨ha, hsz⟩ := p
              have hp := Except.ok.inj hOk
              have hc : (insertNewBlock bo
                  (sh4_cache_clear_blocks bo (sh4_cache_remove_block bo c e.1))
                  ga gs (fl ||| e.2.flags) ha hsz).1 = c' :=
                congrArg Prod.fst hp
              rw [← hc]
              exact insert_sameIds bo _ ga gs _ ha hsz
                (clear_blocks_sameIds bo _
                  (remove_block_sameIds bo c e.1 h))

/-- C9 (witness): the preservation statement instantiated on the empty
cache with a successful compile outcome. -/
theorem indexes_same_set_preserved_w :
    sameIds emptyCache
    ∧ (sameIds (sh4_cache_remove_blocks (fun x => x) emptyCache 5)
      ∧ sameIds (sh4_cache_unlink_blocks (fun x => x) emptyCache)
      ∧ sameIds (sh4_cache_clear_blocks (fun x => x) emptyCache)
      ∧ sameIds (sh4_cache_handle_exception (fun x => x) emptyCache 0 true).2
      ∧ (∀ c' r, sh4_cache_compile_code (fun x => x) 16 emptyCache 3 1 4
            (some (7, 9)) none = .ok (c', r) → sameIds c')) :=
  ⟨fun i => by simp [emptyCache],
    indexes_same_set_preserved (fun x => x) 16 emptyCache 3 1 4 0 5 true
      (some (7, 9)) none (fun i => by simp [emptyCache])⟩

/-- C4: a successful run of the fastmem exception handler on the block
found by the reverse probe sets exactly that block's dispatch slot to the
default code pointer and ORs SH4_SLOWMEM into exactly that block's flags,
and changes nothing else: both tree memberships are untouched (the block
stays in the forward and the reverse index), every other node's fields
are unchanged, every other dispatch slot is unchanged, and so are the
default pointer, the id counter and the reset counter. -/
theorem handle_exception_frame (bo : Nat → Nat) (c : sh4_cache) (pc id : Nat)
    (b : sh4_block)
    (hL : sh4_cache_lookup_block_reverse c pc = some (id, b)) :
    (sh4_cache_handle_exception bo c pc true).1 = true
    ∧ (sh4_cache_handle_exception bo c pc true).2.blocks = c.blocks
    ∧ (sh4_cache_handle_exception bo c pc true).2.reverse_blocks
        = c.reverse_blocks
    ∧ (sh4_cache_handle_exception bo c pc true).2.store.lookup id
        = some (setSlowmem b)
    ∧ (∀ j, j ≠ id →
        (sh4_cache_handle_exception bo c pc true).2.store.lookup j
          = c.store.lookup j)
    ∧ (sh4_cache_handle_exception bo c pc true).2.code (bo b.guest_addr)
        = c.default_code
    ∧ (∀ o, o ≠ bo b.guest_addr →
        (sh4_cache_handle_exception bo c pc true).2.code o = c.code o)
    ∧ (sh4_cache_handle_exception bo c pc true).2.default_code
        = c.default_code
    ∧ (sh4_cache_handle_exception bo c pc true).2.next_id = c.next_id
    ∧ (sh4_cache_handle_exception bo c pc true).2.backend_resets
        = c.backend_resets := by
  have hmem := pickMaxLe_mem (fun b => b.host_addr) pc (revEntries c) (id, b) hL
  have hstore := (mem_revEntries c id b hmem.1).2
  have hh : sh4_cache_handle_exception bo c pc true
      = (true,
          { store := c.store.map (fun e => if e.1 = id then
                (id, setSlowmem e.2) else e),
            blocks := c.blocks,
            reverse_blocks := c.reverse_blocks,
            code := updateFn c.code (bo b.guest_addr) c.default_code,
            default_code := c.default_code,
            next_id := c.next_id,
            backend_resets := c.backend_resets }) := by
    simp [sh4_cache_handle_exception, hL, sh4_cache_unlink_block]
  rw [hh]
  refine ⟨rfl, rfl, rfl, ?_, ?_, ?_, ?_, rfl, rfl, rfl⟩
  · show (c.store.map (fun e => if e.1 = id then
        (id, setSlowmem e.2) else e)).lookup id = some (setSlowmem b)
    rw [lookup_mapUpdate, if_pos rfl, hstore]
    rfl
  · intro j hj
    show (c.store.map (fun e => if e.1 = id then
        (id, setSlowmem e.2) else e)).lookup j = c.store.lookup j
    rw [lookup_mapUpdate, if_neg hj]
  · simp [updateFn]
  · intro o ho
    simp [updateFn, ho]

/-- C4 (witness): one block with host footprint [1000, 1016), faulting pc
1005, backend accepting. -/
theorem handle_exception_frame_w :
    sh4_cache_lookup_block_reverse cacheHost 1005
        = some (0, { guest_addr := 0x100, guest_size := 4,
                     host_addr := 1000, host_size := 16, flags := 0 })
    ∧ ((sh4_cache_handle_exception (fun x => x) cacheHost 1005 true).1 = true
      ∧ (sh4_cache_handle_exception (fun x => x) cacheHost 1005 true).2.store.lookup 0
          = some { guest_addr := 0x100, guest_size := 4, host_addr := 1000,
                   host_size := 16, flags := SH4_SLOWMEM }) := by
  have h := handle_exception_frame (fun x => x) cacheHost 1005 0
    { guest_addr := 0x100, guest_size := 4,
      host_addr := 1000, host_size := 16, flags := 0 } (by decide)
  exact ⟨by decide, h.1, h.2.2.2.1⟩

/-- A successful heap lookup comes from a member entry. -/
theorem lookup_mem :
    ∀ (s : List (Nat × sh4_block)) (j : Nat) (b : sh4_block),
      s.lookup j = some b → (j, b) ∈ s := by
  intro s
  induction s with
  | nil => intro j b h; simp [List.lookup] at h
  | cons x s ih =>
    intro j b h
    obtain ⟨x1, x2⟩ := x
    by_cases hj : j = x1
    · subst hj
      have hbeq : (j == j) = true := by simp
      simp only [List.lookup, hbeq] at h
      obtain rfl : x2 = b := Option.some.inj h
      exact List.mem_cons_self _ _
    · have hbeq : (j == x1) = false := by simp [hj]
      simp only [List.lookup, hbeq] at h
      exact List.mem_cons_of_mem _ (ih j b h)

/-- An exact forward lookup resolves through the heap: the returned id is
a forward member whose heap entry is the returned block, with the probed
guest address. -/
theorem get_block_lookup (c : sh4_cache) (ga sid : Nat) (sb : sh4_block)
    (h : sh4_cache_get_block c ga = some (sid, sb)) :
    sid ∈ c.blocks ∧ c.store.lookup sid = some sb ∧ sb.guest_addr = ga := by
  have hmem := List.mem_of_find?_eq_some h
  have hpred := List.find?_some h
  have h2 := mem_fwdEntries c sid sb hmem
  refine ⟨h2.1, h2.2, ?_⟩
  simpa using hpred

/-- C5: when compile finds a stale block with exactly the probed
guest_addr in the forward index, it ORs the stale flags into the
translation flags (so the new block's flags field carries them, a prior
SLOWMEM downgrade included) and removes the stale node from the forward
index, the reverse index and the heap, the newly assembled block being
the only insertion; stated for a first-try assembly success and for the
clear-and-retry path alike. -/
theorem compile_merges_stale (bo : Nat → Nat) (maxBlocks : Nat)
    (c : sh4_cache) (ga fl gs sid : Nat) (sb : sh4_block)
    (hOff : bo ga < maxBlocks)
    (hSlot : c.code (bo ga) = c.default_code)
    (hStale : sh4_cache_get_block c ga = some (sid, sb))
    (hFresh : ∀ e ∈ c.store, e.1 < c.next_id) :
    (∀ ha hsz asm2, ∃ c',
        sh4_cache_compile_code bo maxBlocks c ga fl gs (some (ha, hsz)) asm2
          = .ok (c', ha)
        ∧ c'.store.lookup c.next_id
            = some { guest_addr := ga, guest_size := gs, host_addr := ha,
                     host_size := hsz, flags := fl ||| sb.flags }
        ∧ sid ∉ c'.blocks ∧ sid ∉ c'.reverse_blocks
        ∧ c'.store.lookup sid = none)
    ∧ (∀ ha hsz, ∃ c',
        sh4_cache_compile_code bo maxBlocks c ga fl gs none (some (ha, hsz))
          = .ok (c', ha)
        ∧ c'.store.lookup c.next_id
            = some { guest_addr := ga, guest_size := gs, host_addr := ha,
                     host_size := hsz, flags := fl ||| sb.flags }
        ∧ sid ∉ c'.blocks ∧ sid ∉ c'.reverse_blocks
        ∧ c'.store.lookup sid = none) := by
  obtain ⟨hsid_mem, hsid_store, hsid_ga⟩ := get_block_lookup c ga sid sb hStale
  have hsid_ne : sid ≠ c.next_id := by
    have := hFresh (sid, sb) (lookup_mem c.store sid sb hsid_store)
    simp only at this
    omega
  have hifs : ∀ asm1 asm2,
      sh4_cache_compile_code bo maxBlocks c ga fl gs asm1 asm2
        = (match asm1 with
          | some (host_addr, host_size) =>
            .ok (insertNewBlock bo (sh4_cache_remove_block bo c sid) ga gs
              (fl ||| sb.flags) host_addr host_size)
          | none =>
            match asm2 with
            | none => .error .assemblerOverflow
            | some (host_addr, host_size) =>
              .ok (insertNewBlock bo
                (sh4_cache_clear_blocks bo (sh4_cache_remove_block bo c sid))
                ga gs (fl ||| sb.flags) host_addr host_size)) := by
    intro asm1 asm2
    simp only [sh4_cache_compile_code, hStale]
    rw [if_neg (by omega), if_neg (fun hne => hne hSlot)]
  have hc1 := remove_block_some bo hsid_store
  have hnotin1 : sid ∉ (sh4_cache_remove_block bo c sid).blocks := by
    rw [hc1]
    simp [List.mem_filter]
  have hnotin1r : sid ∉ (sh4_cache_remove_block bo c sid).reverse_blocks := by
    rw [hc1]
    simp [List.mem_filter]
  have hnone1 : (sh4_cache_remove_block bo c sid).store.lookup sid = none := by
    rw [hc1]
    show (c.store.filter (fun e => e.1 != sid)).lookup sid = none
    rw [lookup_filter_ne, if_pos rfl]
  have hnext1 : (sh4_cache_remove_block bo c sid).next_id = c.next_id := by
    rw [hc1]
  constructor
  · intro ha hsz asm2
    refine ⟨(insertNewBlock bo (sh4_cache_remove_block bo c sid) ga gs
        (fl ||| sb.flags) ha hsz).1, ?_, ?_, ?_, ?_, ?_⟩
    · rw [hifs]
      rfl
    · have hst : (insertNewBlock bo (sh4_cache_remove_block bo c sid) ga gs
          (fl ||| sb.flags) ha hsz).1.store
          = ((sh4_cache_remove_block bo c sid).next_id,
              { guest_addr := ga, guest_size := gs, host_addr := ha,
                host_size := hsz, flags := fl ||| sb.flags })
            :: (sh4_cache_remove_block bo c sid).store := rfl
      rw [hst, hnext1]
      simp [List.lookup]
    · have hbl : (insertNewBlock bo (sh4_cache_remove_block bo c sid) ga gs
          (fl ||| sb.flags) ha hsz).1.blocks
          = (sh4_cache_remove_block bo c sid).next_id
            :: (sh4_cache_remove_block bo c sid).blocks := rfl
      rw [hbl, hnext1]
      intro hmem
      rcases List.mem_cons.mp hmem with h | h
      · exact hsid_ne h
      · exact hnotin1 h
    · have hbl : (insertNewBlock bo (sh4_cache_remove_block bo c sid) ga gs
          (fl ||| sb.flags) ha hsz).1.reverse_blocks
          = (sh4_cache_remove_block bo c sid).next_id
            :: (sh4_cache_remove_block bo c sid).reverse_blocks := rfl
      rw [hbl, hnext1]
      intro hmem
      rcases List.mem_cons.mp hmem with h | h
      · exact hsid_ne h
      · exact hnotin1r h
    · have hst : (insertNewBlock bo (sh4_cache_remove_block bo c sid) ga gs
          (fl ||| sb.flags) ha hsz).1.store
          = ((sh4_cache_remove_block bo c sid).next_id,
              { guest_addr := ga, guest_size := gs, host_addr := ha,
                host_size := hsz, flags := fl ||| sb.flags })
            :: (sh4_cache_remove_block bo c sid).store := rfl
      rw [hst, hnext1]
      have hbeq : (sid == c.next_id) = false := by simp [hsid_ne]
      simp only [List.lookup, hbeq]
      exact hnone1
  · intro ha hsz
    obtain ⟨hb2, hr2, hs2, -, hn2, -⟩ :=
      clear_blocks_char bo (sh4_cache_remove_block bo c sid)
    have hnotin2 : sid ∉
        (sh4_cache_clear_blocks bo (sh4_cache_remove_block bo c sid)).blocks := by
      rw [hb2]
      intro h
      exact hnotin1 (List.mem_filter.mp h).1
    have hnotin2r : sid ∉
        (sh4_cache_clear_blocks bo
          (sh4_cache_remove_block bo c sid)).reverse_blocks := by
      rw [hr2]
      intro h
      exact hnotin1r (List.mem_filter.mp h).1
    have hnone2 : (sh4_cache_clear_blocks bo
        (sh4_cache_remove_block bo c sid)).store.lookup sid = none := by
      rw [hs2]
      exact lookup_filter_none _ _ sid hnone1
    have hnext2 : (sh4_cache_clear_blocks bo
        (sh4_cache_remove_block bo c sid)).next_id = c.next_id := by
      rw [hn2, hnext1]
    refine ⟨(insertNewBlock bo
        (sh4_cache_clear_blocks bo (sh4_cache_remove_block bo c sid)) ga gs
        (fl ||| sb.flags) ha hsz).1, ?_, ?_, ?_, ?_, ?_⟩
    · rw [hifs]
      rfl
    · have hst : (insertNewBlock bo
          (sh4_cache_clear_blocks bo (sh4_cache_remove_block bo c sid)) ga gs
          (fl ||| sb.flags) ha hsz).1.store
          = ((sh4_cache_clear_blocks bo (sh4_cache_remove_block bo c sid)).next_id,
              { guest_addr := ga, guest_size := gs, host_addr := ha,
                host_size := hsz, flags := fl ||| sb.flags })
            :: (sh4_cache_clear_blocks bo (sh4_cache_remove_block bo c sid)).store := rfl
      rw [hst, hnext2]
      simp [List.lookup]
    · have hbl : (insertNewBlock bo
          (sh4_cache_clear_blocks bo (sh4_cache_remove_block bo c sid)) ga gs
          (fl ||| sb.flags) ha hsz).1.blocks
          = (sh4_cache_clear_blocks bo (sh4_cache_remove_block bo c sid)).next_id
            :: (sh4_cache_clear_blocks bo (sh4_cache_remove_block bo c sid)).blocks := rfl
      rw [hbl, hnext2]
      intro hmem
      rcases List.mem_cons.mp hmem with h | h
      · exact hsid_ne h
      · exact hnotin2 h
    · have hbl : (insertNewBlock bo
          (sh4_cache_clear_blocks bo (sh4_cache_remove_block bo c sid)) ga gs
          (fl ||| sb.flags) ha hsz).1.reverse_blocks
          = (sh4_cache_clear_blocks bo (sh4_cache_remove_block bo c sid)).next_id
            :: (sh4_cache_clear_blocks bo
              (sh4_cache_remove_block bo c sid)).reverse_blocks := rfl
      rw [hbl, hnext2]
      intro hmem
      rcases List.mem_cons.mp hmem with h | h
      · exact hsid_ne h
      · exact hnotin2r h
    · have hst : (insertNewBlock bo
          (sh4_cache_clear_blocks bo (sh4_cache_remove_block bo c sid)) ga gs
          (fl ||| sb.flags) ha hsz).1.store
          = ((sh4_cache_clear_blocks bo (sh4_cache_remove_block bo c sid)).next_id,
              { guest_addr := ga, guest_size := gs, host_addr := ha,
                host_size := hsz, flags := fl ||| sb.flags })
            :: (sh4_cache_clear_blocks bo (sh4_cache_remove_block bo c sid)).store := rfl
      rw [hst, hnext2]
      have hbeq : (sid == c.next_id) = false := by simp [hsid_ne]
      simp only [List.lookup, hbeq]
      exact hnone2

/-- C3: the overflow protocol of compile. When the first assembly attempt
returns null (asm1 = none), compile clears the whole cache — all blocks
leave both indexes, every removed block's dispatch slot reverts to the
default pointer, and the backend buffer is reset — and consults the
single retry: if the retry is also null the fatal assembler-overflow
CHECK fires, and if the retry succeeds compile completes normally with
both indexes holding exactly the new block. When the first attempt
succeeds, no reset happens at all. -/
theorem compile_overflow_retry (bo : Nat → Nat) (maxBlocks : Nat)
    (c : sh4_cache) (ga fl gs : Nat)
    (hOff : bo ga < maxBlocks)
    (hSlot : c.code (bo ga) = c.default_code)
    (hSame : sameIds c)
    (hCov : ∀ i, i ∈ c.blocks → (c.store.lookup i).isSome) :
    sh4_cache_compile_code bo maxBlocks c ga fl gs none none
        = .error .assemblerOverflow
    ∧ (∀ ha hsz, ∃ c',
        sh4_cache_compile_code bo maxBlocks c ga fl gs none (some (ha, hsz))
          = .ok (c', ha)
        ∧ c'.blocks = [c.next_id]
        ∧ c'.reverse_blocks = [c.next_id]
        ∧ c'.backend_resets = c.backend_resets + 1
        ∧ c'.code (bo ga) = ha
        ∧ (∀ j bj, j ∈ c.blocks → c.store.lookup j = some bj →
            bo bj.guest_addr ≠ bo ga →
            c'.code (bo bj.guest_addr) = c.default_code))
    ∧ (∀ ha hsz asm2, ∃ c',
        sh4_cache_compile_code bo maxBlocks c ga fl gs (some (ha, hsz)) asm2
          = .ok (c', ha)
        ∧ c'.backend_resets = c.backend_resets) := by
  cases hStale : sh4_cache_get_block c ga with
  | none =>
    have hifs : ∀ asm1 asm2,
        sh4_cache_compile_code bo maxBlocks c ga fl gs asm1 asm2
          = (match asm1 with
            | some (host_addr, host_size) =>
              .ok (insertNewBlock bo c ga gs fl host_addr host_size)
            | none =>
              match asm2 with
              | none => .error .assemblerOverflow
              | some (host_addr, host_size) =>
                .ok (insertNewBlock bo (sh4_cache_clear_blocks bo c)
                  ga gs fl host_addr host_size)) := by
      intro asm1 asm2
      simp only [sh4_cache_compile_code, hStale]
      rw [if_neg (by omega), if_neg (fun hne => hne hSlot)]
    obtain ⟨hb2, hr2, hs2, hd2, hn2, hres2⟩ := clear_blocks_char bo c
    have hbnil : (sh4_cache_clear_blocks bo c).blocks = [] := by
      rw [hb2]
      apply List.filter_eq_nil_iff.mpr
      intro j hj
      have hcont := List.elem_eq_true_of_mem hj
      have hsome := hCov j hj
      simp [hcont, hsome, hj]
    have hrnil : (sh4_cache_clear_blocks bo c).reverse_blocks = [] := by
      rw [hr2]
      apply List.filter_eq_nil_iff.mpr
      intro j hj
      have hj2 : j ∈ c.blocks := (hSame j).mpr hj
      have hcont := List.elem_eq_true_of_mem hj2
      have hsome := hCov j hj2
      simp [hcont, hsome, hj2]
    refine ⟨by simp only [hifs], ?_, ?_⟩
    · intro ha hsz
      refine ⟨(insertNewBlock bo (sh4_cache_clear_blocks bo c)
          ga gs fl ha hsz).1, by simp only [hifs]; rfl, ?_, ?_, ?_, ?_, ?_⟩
      · show (sh4_cache_clear_blocks bo c).next_id
            :: (sh4_cache_clear_blocks bo c).blocks = [c.next_id]
        rw [hbnil, hn2]
      · show (sh4_cache_clear_blocks bo c).next_id
            :: (sh4_cache_clear_blocks bo c).reverse_blocks = [c.next_id]
        rw [hrnil, hn2]
      · show (sh4_cache_clear_blocks bo c).backend_resets
            = c.backend_resets + 1
        exact hres2
      · show updateFn (sh4_cache_clear_blocks bo c).code (bo ga) ha (bo ga) = ha
        simp [updateFn]
      · intro j bj hj hl hne
        show updateFn (sh4_cache_clear_blocks bo c).code (bo ga) ha
            (bo bj.guest_addr) = c.default_code
        rw [updateFn, if_neg hne]
        show (c.blocks.foldl (fun acc i => sh4_cache_remove_block bo acc i)
            c).code (bo bj.guest_addr) = c.default_code
        exact foldl_remove_code_hit bo c.blocks c j bj hj hl
    · intro ha hsz asm2
      exact ⟨(insertNewBlock bo c ga gs fl ha hsz).1, by simp only [hifs]; rfl, rfl⟩
  | some e =>
    obtain ⟨sid, sb⟩ := e
    obtain ⟨hsid_mem, hsid_store, hsid_ga⟩ := get_block_lookup c ga sid sb hStale
    have hifs : ∀ asm1 asm2,
        sh4_cache_compile_code bo maxBlocks c ga fl gs asm1 asm2
          = (match asm1 with
            | some (host_addr, host_size) =>
              .ok (insertNewBlock bo (sh4_cache_remove_block bo c sid) ga gs
                (fl ||| sb.flags) host_addr host_size)
            | none =>
              match asm2 with
              | none => .error .assemblerOverflow
              | some (host_addr, host_size) =>
                .ok (insertNewBlock bo
                  (sh4_cache_clear_blocks bo (sh4_cache_remove_block bo c sid))
                  ga gs (fl ||| sb.flags) host_addr host_size)) := by
      intro asm1 asm2
      simp only [sh4_cache_compile_code, hStale]
      rw [if_neg (by omega), if_neg (fun hne => hne hSlot)]
    have hc1 := remove_block_some bo hsid_store
    have hc1blocks : (sh4_cache_remove_block bo c sid).blocks
        = c.blocks.filter (fun j => j != sid) := by rw [hc1]
    have hc1rev : (sh4_cache_remove_block bo c sid).reverse_blocks
        = c.reverse_blocks.filter (fun j => j != sid) := by rw [hc1]
    have hc1store : (sh4_cache_remove_block bo c sid).store
        = c.store.filter (fun e => e.1 != sid) := by rw [hc1]
    have hc1next : (sh4_cache_remove_block bo c sid).next_id = c.next_id := by
      rw [hc1]
    have hc1res : (sh4_cache_remove_block bo c sid).backend_resets
        = c.backend_resets := by rw [hc1]
    have hc1default : (sh4_cache_remove_block bo c sid).default_code
        = c.default_code := by rw [hc1]
    have hc1cov : ∀ i, i ∈ (sh4_cache_remove_block bo c sid).blocks →
        ((sh4_cache_remove_block bo c sid).store.lookup i).isSome := by
      intro i hi
      rw [hc1blocks] at hi
      obtain ⟨hi1, hi2⟩ := List.mem_filter.mp hi
      have hine : i ≠ sid := by simpa using hi2
      rw [hc1store, lookup_filter_ne, if_neg hine]
      exact hCov i hi1
    obtain ⟨hb2, hr2, hs2, hd2, hn2, hres2⟩ :=
      clear_blocks_char bo (sh4_cache_remove_block bo c sid)
    have hbnil : (sh4_cache_clear_blocks bo
        (sh4_cache_remove_block bo c sid)).blocks = [] := by
      rw [hb2]
      apply List.filter_eq_nil_iff.mpr
      intro j hj
      have hcont := List.elem_eq_true_of_mem hj
      have hsome := hc1cov j hj
      simp [hcont, hsome, hj]
    have hrnil : (sh4_cache_clear_blocks bo
        (sh4_cache_remove_block bo c sid)).reverse_blocks = [] := by
      rw [hr2]
      apply List.filter_eq_nil_iff.mpr
      intro j hj
      have hj2 : j ∈ (sh4_cache_remove_block bo c sid).blocks := by
        rw [hc1blocks]
        rw [hc1rev] at hj
        obtain ⟨hj1, hj3⟩ := List.mem_filter.mp hj
        exact List.mem_filter.mpr ⟨(hSame j).mpr hj1, hj3⟩
      have hcont := List.elem_eq_true_of_mem hj2
      have hsome := hc1cov j hj2
      simp [hcont, hsome, hj2]
    refine ⟨by simp only [hifs], ?_, ?_⟩
    · intro ha hsz
      refine ⟨(insertNewBlock bo
          (sh4_cache_clear_blocks bo (sh4_cache_remove_block bo c sid))
          ga gs (fl ||| sb.flags) ha hsz).1, by simp only [hifs]; rfl, ?_, ?_, ?_, ?_, ?_⟩
      · show (sh4_cache_clear_blocks bo
              (sh4_cache_remove_block bo c sid)).next_id
            :: (sh4_cache_clear_blocks bo
              (sh4_cache_remove_block bo c sid)).blocks = [c.next_id]
        rw [hbnil, hn2, hc1next]
      · show (sh4_cache_clear_blocks bo
              (sh4_cache_remove_block bo c sid)).next_id
            :: (sh4_cache_clear_blocks bo
              (sh4_cache_remove_block bo c sid)).reverse_blocks = [c.next_id]
        rw [hrnil, hn2, hc1next]
      · show (sh4_cache_clear_blocks bo
            (sh4_cache_remove_block bo c sid)).backend_resets
            = c.backend_resets + 1
        rw [hres2, hc1res]
      · show updateFn (sh4_cache_clear_blocks bo
            (sh4_cache_remove_block bo c sid)).code (bo ga) ha (bo ga) = ha
        simp [updateFn]
      · intro j bj hj hl hne
        show updateFn (sh4_cache_clear_blocks bo
            (sh4_cache_remove_block bo c sid)).code (bo ga) ha
            (bo bj.guest_addr) = c.default_code
        rw [updateFn, if_neg hne]
        show ((sh4_cache_remove_block bo c sid).blocks.foldl
            (fun acc i => sh4_cache_remove_block bo acc i)
            (sh4_cache_remove_block bo c sid)).code (bo bj.guest_addr)
            = c.default_code
        by_cases hjs : j = sid
        · subst hjs
          obtain rfl : sb = bj := Option.some.inj (hsid_store.symm.trans hl)
          have hslot1 : (sh4_cache_remove_block bo c j).code (bo sb.guest_addr)
              = c.default_code := by
            rw [hc1]
            simp [updateFn]
          rcases foldl_remove_code_default bo
            (sh4_cache_remove_block bo c j).blocks
            (sh4_cache_remove_block bo c j) (bo sb.guest_addr) with hw | hw
          · rw [hw, hslot1]
          · rw [hw, hc1default]
        · have hj1 : j ∈ (sh4_cache_remove_block bo c sid).blocks := by
            rw [hc1blocks]
            exact List.mem_filter.mpr ⟨hj, by simpa using hjs⟩
          have hl1 : (sh4_cache_remove_block bo c sid).store.lookup j
              = some bj := by
            rw [hc1store, lookup_filter_ne, if_neg hjs]
            exact hl
          have := foldl_remove_code_hit bo
            (sh4_cache_remove_block bo c sid).blocks
            (sh4_cache_remove_block bo c sid) j bj hj1 hl1
          rw [this, hc1default]
    · intro ha hsz asm2
      refine ⟨(insertNewBlock bo (sh4_cache_remove_block bo c sid) ga gs
          (fl ||| sb.flags) ha hsz).1, by simp only [hifs]; rfl, ?_⟩
      show (sh4_cache_remove_block bo c sid).backend_resets = c.backend_resets
      exact hc1res

/-- C3 (witness): on the empty cache, a null first assembly with a null
retry is the fatal overflow, and a successful retry leaves exactly the
new block. -/
theorem compile_overflow_retry_w :
    sh4_cache_compile_code (fun x => x) 16 emptyCache 3 1 4 none none
        = .error .assemblerOverflow
    ∧ (∃ c', sh4_cache_compile_code (fun x => x) 16 emptyCache 3 1 4 none
          (some (7, 9)) = .ok (c', 7)
        ∧ c'.blocks = [emptyCache.next_id]
        ∧ c'.reverse_blocks = [emptyCache.next_id]
        ∧ c'.backend_resets = emptyCache.backend_resets + 1
        ∧ c'.code ((fun x => x) 3) = 7) := by
  have h := compile_overflow_retry (fun x => x) 16 emptyCache 3 1 4
    (by decide) (by decide) (fun i => by simp [emptyCache])
    (fun i hi => by simp [emptyCache] at hi)
  obtain ⟨c', h1, h2, h3, h4, h5, -⟩ := h.2.1 7 9
  exact ⟨h.1, c', h1, h2, h3, h4, h5⟩

/-- C5 (witness): a stale SLOWMEM block at guest_addr 100 is merged and
removed by a recompilation of the same address. -/
theorem compile_merges_stale_w :
    (sh4_cache_get_block cacheStale 100
        = some (0, { guest_addr := 100, guest_size := 4, host_addr := 500,
                     host_size := 8, flags := SH4_SLOWMEM }))
    ∧ (∃ c', sh4_cache_compile_code (fun x => x) 256 cacheStale 100
          SH4_FASTMEM 4 (some (600, 12)) none = .ok (c', 600)
        ∧ c'.store.lookup cacheStale.next_id
            = some { guest_addr := 100, guest_size := 4, host_addr := 600,
                     host_size := 12,
                     flags := SH4_FASTMEM ||| SH4_SLOWMEM }
        ∧ 0 ∉ c'.blocks ∧ 0 ∉ c'.reverse_blocks
        ∧ c'.store.lookup 0 = none) := by
  have h := compile_merges_stale (fun x => x) 256 cacheStale 100 SH4_FASTMEM 4 0
    { guest_addr := 100, guest_size := 4, host_addr := 500,
      host_size := 8, flags := SH4_SLOWMEM }
    (by decide) (by decide) (by decide)
    (by intro e he; simp [cacheStale] at he; simp [he, cacheStale])
  exact ⟨by decide, h.1 600 12 none⟩

/-- Resolving the reverse tree through a flags-updated heap is the
entrywise flags update of the original resolution. -/
theorem revEntries_flagsUpdate (c c2 : sh4_cache) (id : Nat)
    (f : sh4_block → sh4_block)
    (hrev : c2.reverse_blocks = c.reverse_blocks)
    (hstore : c2.store = c.store.map
      (fun e => if e.1 = id then (id, f e.2) else e)) :
    revEntries c2 = (revEntries c).map
      (fun e => if e.1 = id then (id, f e.2) else e) := by
  unfold revEntries
  rw [hrev, hstore]
  generalize c.reverse_blocks = l
  induction l with
  | nil => simp
  | cons i l ih =>
    simp only [List.filterMap_cons]
    rw [lookup_mapUpdate]
    by_cases hi : i = id
    · subst hi
      cases hx : c.store.lookup i with
      | none => simp [ih]
      | some b =>
        simp only [if_pos rfl, hx, Option.map_some', List.map_cons, ih]
        simp
    · rw [if_neg hi]
      cases hx : c.store.lookup i with
      | none => simp [ih]
      | some b =>
        simp only [Option.map_some', List.map_cons, ih]
        simp [hi]

/-- The largest-key selection commutes with any entrywise rewrite that
preserves keys. -/
theorem pickFold_map (key : sh4_block → Nat) (limit : Nat)
    (g : Nat × sh4_block → Nat × sh4_block)
    (hg : ∀ e, key (g e).2 = key e.2) :
    ∀ (l : List (Nat × sh4_block)) (acc : Option (Nat × sh4_block)),
      (l.map g).foldl (pickStep key limit) (acc.map g)
        = (l.foldl (pickStep key limit) acc).map g := by
  intro l
  induction l with
  | nil => intro acc; simp
  | cons x l ih =>
    intro acc
    simp only [List.map_cons, List.foldl_cons]
    have hstep : pickStep key limit (acc.map g) (g x)
        = (pickStep key limit acc x).map g := by
      unfold pickStep
      rw [hg x]
      by_cases hx : key x.2 ≤ limit
      · rw [if_pos hx, if_pos hx]
        cases acc with
        | none => simp
        | some b =>
          simp only [Option.map_some']
          rw [hg b]
          by_cases hb : key b.2 < key x.2
          · rw [if_pos hb, if_pos hb]
            rfl
          · rw [if_neg hb, if_neg hb]
            rfl
      · rw [if_neg hx, if_neg hx]
    rw [hstep]
    exact ih (pickStep key limit acc x)

/-- A dispatch-table write of the value already present is invisible. -/
theorem updateFn_noop (f : Nat → Nat) (k v : Nat) (h : f k = v) :
    updateFn f k v = f := by
  funext x
  unfold updateFn
  by_cases hx : x = k
  · rw [if_pos hx, hx, h]
  · rw [if_neg hx]

/-- ORing SH4_SLOWMEM into flags twice equals doing it once. -/
theorem setSlowmem_idem (b : sh4_block) :
    setSlowmem (setSlowmem b) = setSlowmem b := by
  unfold setSlowmem
  simp only [sh4_block.mk.injEq, and_true, true_and]
  rw [Nat.lor_assoc, Nat.or_self]

/-- C8: handling the same faulting pc twice in a row (with the backend
giving the same verdict) leaves exactly the cache produced by the first
run, and returns the same verdict: the reverse probe finds the same
block (its host_addr is untouched by the flags update), the second
unlink writes the default pointer into a slot that already holds it, and
ORing SH4_SLOWMEM into flags already containing it changes nothing. -/
theorem handle_exception_idem (bo : Nat → Nat) (c : sh4_cache) (pc : Nat)
    (acc : Bool) :
    sh4_cache_handle_exception bo
        (sh4_cache_handle_exception bo c pc acc).2 pc acc
      = sh4_cache_handle_exception bo c pc acc := by
  cases hL : sh4_cache_lookup_block_reverse c pc with
  | none =>
    have h1 : sh4_cache_handle_exception bo c pc acc = (false, c) := by
      simp [sh4_cache_handle_exception, hL]
    rw [h1]
    exact h1
  | some e =>
    obtain ⟨id, b⟩ := e
    cases acc with
    | false =>
      have h1 : sh4_cache_handle_exception bo c pc false = (false, c) := by
        simp [sh4_cache_handle_exception, hL]
      rw [h1]
      exact h1
    | true =>
      have h1 : sh4_cache_handle_exception bo c pc true
          = (true,
              { store := c.store.map
                  (fun e => if e.1 = id then (id, setSlowmem e.2) else e),
                blocks := c.blocks,
                reverse_blocks := c.reverse_blocks,
                code := updateFn c.code (bo b.guest_addr) c.default_code,
                default_code := c.default_code,
                next_id := c.next_id,
                backend_resets := c.backend_resets }) := by
        simp [sh4_cache_handle_exception, hL, sh4_cache_unlink_block]
      rw [h1]
      have hL2 : sh4_cache_lookup_block_reverse
          { store := c.store.map
              (fun e => if e.1 = id then (id, setSlowmem e.2) else e),
            blocks := c.blocks,
            reverse_blocks := c.reverse_blocks,
            code := updateFn c.code (bo b.guest_addr) c.default_code,
            default_code := c.default_code,
            next_id := c.next_id,
            backend_resets := c.backend_resets } pc
          = some (id, setSlowmem b) := by
        unfold sh4_cache_lookup_block_reverse
        rw [revEntries_flagsUpdate c
          { store := c.store.map
              (fun e => if e.1 = id then (id, setSlowmem e.2) else e),
            blocks := c.blocks,
            reverse_blocks := c.reverse_blocks,
            code := updateFn c.code (bo b.guest_addr) c.default_code,
            default_code := c.default_code,
            next_id := c.next_id,
            backend_resets := c.backend_resets } id setSlowmem rfl rfl]
        unfold pickMaxLe
        rw [show (none : Option (Nat × sh4_block))
            = Option.map (fun e => if e.1 = id then (id, setSlowmem e.2) else e)
              none from rfl]
        rw [pickFold_map (fun b => b.host_addr) pc _ (by
          intro e
          by_cases he : e.1 = id
          · simp [he, setSlowmem]
          · simp [he])]
        show Option.map _ (pickMaxLe (fun b => b.host_addr) pc (revEntries c))
            = _
        have hL2 : pickMaxLe (fun b => b.host_addr) pc (revEntries c)
            = some (id, b) := hL
        rw [hL2]
        simp
      have h2 : sh4_cache_handle_exception bo
          { store := c.store.map
              (fun e => if e.1 = id then (id, setSlowmem e.2) else e),
            blocks := c.blocks,
            reverse_blocks := c.reverse_blocks,
            code := updateFn c.code (bo b.guest_addr) c.default_code,
            default_code := c.default_code,
            next_id := c.next_id,
            backend_resets := c.backend_resets } pc true
          = (true,
              { store := (c.store.map
                    (fun e => if e.1 = id then (id, setSlowmem e.2) else e)).map
                  (fun e => if e.1 = id then (id, setSlowmem e.2) else e),
                blocks := c.blocks,
                reverse_blocks := c.reverse_blocks,
                code := updateFn
                  (updateFn c.code (bo b.guest_addr) c.default_code)
                  (bo (setSlowmem b).guest_addr) c.default_code,
                default_code := c.default_code,
                next_id := c.next_id,
                backend_resets := c.backend_resets }) := by
        simp [sh4_cache_handle_exception, hL2, sh4_cache_unlink_block]
      rw [h2]
      have hga : (setSlowmem b).guest_addr = b.guest_addr := rfl
      have hcode : updateFn (updateFn c.code (bo b.guest_addr) c.default_code)
          (bo (setSlowmem b).guest_addr) c.default_code
          = updateFn c.code (bo b.guest_addr) c.default_code := by
        rw [hga]
        apply updateFn_noop
        simp [updateFn]
      have hstore : (c.store.map
            (fun e => if e.1 = id then (id, setSlowmem e.2) else e)).map
          (fun e => if e.1 = id then (id, setSlowmem e.2) else e)
          = c.store.map
            (fun e => if e.1 = id then (id, setSlowmem e.2) else e) := by
        rw [List.map_map]
        apply List.map_eq_map_iff.mpr
        intro e he
        by_cases hei : e.1 = id
        · simp [Function.comp, hei, setSlowmem_idem]
        · simp [Function.comp, hei]
      rw [hcode, hstore]

/-- C2 (amended, witness): instantiated on a cache where the probe
misses, the handler reports not-mine and returns the cache unchanged. -/
theorem handle_exception_not_mine_iff_w :
    (sh4_cache_handle_exception (fun a => a) emptyCache 5 true).1 = false
    ∧ (sh4_cache_handle_exception (fun a => a) emptyCache 5 true).2
        = emptyCache := by
  have h := handle_exception_not_mine_iff (fun a => a) emptyCache 5 true
  have h1 : (sh4_cache_handle_exception (fun a => a) emptyCache 5 true).1 = false :=
    h.1.mpr (Or.inl (by decide))
  exact ⟨h1, h.2.1 h1⟩

end Redream
